import Mathlib

/-!
# gopher-tidy: a shallow embedding of `gopher-tidy.go`

The program asks for an application name, scans nine macOS directories for
direct children whose name contains the name (`findAssociatedFiles`), and
offers an interactive menu for deleting what it found (`handleDeletion`,
`deleteFiles`).

Modelling conventions.

* A Go `string` is a Lean `String`, read as its sequence of runes.
* The Go library functions the program calls (`strings.*`, `strconv.Atoi`,
  `filepath.Clean/Join/Dir/WalkDir`) are written out as Lean functions that
  follow the library's documented behaviour on Unix.  The Unicode case tables
  are not part of the repository and are taken as a parameter
  (`UnicodeTables`).
* The world outside the program is explicit: standard input is the list of
  characters still to be read, the directory trees seen by the scan are a
  snapshot (`Node`), `os.RemoveAll` is a state-passing oracle, and everything
  the program does that can be observed is appended to a trace of `Event`s.
-/

set_option autoImplicit false

namespace GopherTidy

/-! ## Go library: runes and strings -/

/-- The part of Go's `unicode` package that lives in generated tables:
`lowerTable` is `unicode.ToLower` on runes above U+007F, `foldTable sr tr` is
the orbit test of `strings.EqualFold` (`unicode.SimpleFold` applied to `sr`
reaches `tr`) for a pair of distinct runes with `sr < tr` and `tr` above
U+007F. -/
structure UnicodeTables where
  lowerTable : Char → Char
  foldTable : Char → Char → Bool

/-- Go's `unicode.IsSpace`: the Latin-1 switch, then the `White_Space` table. -/
def isSpace (r : Char) : Bool :=
  let n := r.toNat
  if n ≤ 0xFF then
    n = 0x09 || n = 0x0A || n = 0x0B || n = 0x0C || n = 0x0D || n = 0x20 || n = 0x85 || n = 0xA0
  else
    n = 0x1680 || (0x2000 ≤ n && n ≤ 0x200A) || n = 0x2028 || n = 0x2029 || n = 0x202F
      || n = 0x205F || n = 0x3000

/-- Go's `unicode.ToLower`: the ASCII branch is code, the rest is the table. -/
def unicodeToLower (U : UnicodeTables) (r : Char) : Char :=
  if r.toNat ≤ 0x7F then
    if 'A'.toNat ≤ r.toNat ∧ r.toNat ≤ 'Z'.toNat then Char.ofNat (r.toNat + 32) else r
  else U.lowerTable r

/-- Go's `strings.ToLower`: every rune is mapped by `unicode.ToLower`. -/
def ToLower (U : UnicodeTables) (s : String) : String :=
  ⟨s.data.map (unicodeToLower U)⟩

/-- Go's `strings.TrimSpace`: leading and trailing `unicode.IsSpace` runes are
removed. -/
def TrimSpace (s : String) : String :=
  ⟨((s.data.dropWhile isSpace).reverse.dropWhile isSpace).reverse⟩

/-- The scanning loop of `strings.ReplaceAll` for a non-empty `old`: at each
position either `old` starts there and is replaced, or one rune is copied.
`fuel` bounds the number of steps. -/
def replaceLoop (old new : List Char) : Nat → List Char → List Char
  | 0, s => s
  | _ + 1, [] => []
  | fuel + 1, c :: cs =>
    if old.isPrefixOf (c :: cs) then new ++ replaceLoop old new fuel ((c :: cs).drop old.length)
    else c :: replaceLoop old new fuel cs

/-- Go's `strings.ReplaceAll`.  With an empty `old`, `new` is inserted before
every rune and at the end. -/
def ReplaceAll (s old new : String) : String :=
  if old.data = [] then ⟨new.data ++ s.data.flatMap (fun c => c :: new.data)⟩
  else ⟨replaceLoop old.data new.data s.data.length s.data⟩

/-- Substring test on rune sequences. -/
def containsChars : List Char → List Char → Bool
  | [], sub => sub.isEmpty
  | c :: cs, sub => sub.isPrefixOf (c :: cs) || containsChars cs sub

/-- Go's `strings.Contains`. -/
def Contains (s substr : String) : Bool :=
  containsChars s.data substr.data

/-- The per-rune test of `strings.EqualFold`: equal runes, an ASCII
upper/lower pair, or (when the larger rune is not ASCII) the fold table. -/
def foldRune (U : UnicodeTables) (a b : Char) : Bool :=
  if a = b then true
  else
    let sr := if b.toNat < a.toNat then b else a
    let tr := if b.toNat < a.toNat then a else b
    if tr.toNat < 0x80 then
      decide ('A'.toNat ≤ sr.toNat ∧ sr.toNat ≤ 'Z'.toNat ∧ tr.toNat = sr.toNat + 32)
    else U.foldTable sr tr

/-- Rune-by-rune comparison of `strings.EqualFold`. -/
def equalFoldChars (U : UnicodeTables) : List Char → List Char → Bool
  | [], [] => true
  | a :: s, b :: t => foldRune U a b && equalFoldChars U s t
  | _, _ => false

/-- Go's `strings.EqualFold`. -/
def EqualFold (U : UnicodeTables) (s t : String) : Bool :=
  equalFoldChars U s.data t.data

/-- The splitting loop of `strings.Fields`; `cur` is the field being read, in
reverse. -/
def fieldsLoop : List Char → List Char → List String
  | cur, [] => if cur.isEmpty then [] else [⟨cur.reverse⟩]
  | cur, c :: cs =>
    if isSpace c then
      if cur.isEmpty then fieldsLoop [] cs else ⟨cur.reverse⟩ :: fieldsLoop [] cs
    else fieldsLoop (c :: cur) cs

/-- Go's `strings.Fields`: the maximal runs of non-space runes. -/
def Fields (s : String) : List String :=
  fieldsLoop [] s.data

/-- Value of a non-empty run of decimal digits, `none` on any other rune. -/
def parseDigits : List Char → Option Nat
  | [] => none
  | cs => cs.foldl (fun acc c =>
      match acc with
      | none => none
      | some n => if c.isDigit then some (n * 10 + (c.toNat - '0'.toNat)) else none) (some 0)

/-- Go's `strconv.Atoi` for a 64-bit `int`: an optional sign, then decimal
digits; `none` stands for a non-nil error (bad syntax or out of range). -/
def Atoi (s : String) : Option Int :=
  let signed : Bool × List Char :=
    match s.data with
    | '-' :: r => (true, r)
    | '+' :: r => (false, r)
    | r => (false, r)
  match parseDigits signed.2 with
  | none => none
  | some n =>
    let v : Int := if signed.1 then -(n : Int) else (n : Int)
    if -(2 : Int) ^ 63 ≤ v ∧ v ≤ (2 : Int) ^ 63 - 1 then some v else none

/-! ## Go library: `path/filepath` on Unix -/

/-- The elements of a path: the text between consecutive separators. -/
def splitSlash : List Char → List (List Char)
  | [] => [[]]
  | c :: cs =>
    if c = '/' then [] :: splitSlash cs
    else
      match splitSlash cs with
      | [] => [[c]]
      | h :: t => (c :: h) :: t

/-- Elements joined by single separators. -/
def joinSlash : List (List Char) → List Char
  | [] => []
  | [c] => c
  | c :: d :: rest => c ++ '/' :: joinSlash (d :: rest)

/-- One round of the loop of `filepath.Clean`, on the elements written so far:
an empty element or `.` is dropped, `..` removes the last real element (or is
kept at the start of a relative path, or dropped at the root), anything else
is appended. -/
def cleanStep (rooted : Bool) (stack : List (List Char)) (comp : List Char) : List (List Char) :=
  if comp = [] ∨ comp = ['.'] then stack
  else if comp = ['.', '.'] then
    match stack.getLast? with
    | none => if rooted then [] else [comp]
    | some top =>
      if top = ['.', '.'] then (if rooted then stack else stack ++ [comp])
      else stack.dropLast
  else stack ++ [comp]

/-- Whether a path starts at the root. -/
def isRooted (p : List Char) : Bool :=
  p.head? = some '/'

/-- The elements `filepath.Clean` keeps. -/
def stackOf (p : List Char) : List (List Char) :=
  (splitSlash p).foldl (cleanStep (isRooted p)) []

/-- The text of a cleaned path: `/` for the root, `.` for the empty relative
path. -/
def renderPath (rooted : Bool) (stack : List (List Char)) : List Char :=
  if rooted then '/' :: joinSlash stack
  else if stack = [] then ['.'] else joinSlash stack

/-- Rune-level `filepath.Clean`. -/
def cleanChars (p : List Char) : List Char :=
  renderPath (isRooted p) (stackOf p)

/-- Go's `filepath.Clean`. -/
def Clean (path : String) : String :=
  ⟨cleanChars path.data⟩

/-- Go's `filepath.Join`: leading empty elements are ignored, the rest is
joined with separators and cleaned. -/
def Join (elem : List String) : String :=
  match elem.dropWhile (fun e => e = "") with
  | [] => ""
  | es => Clean ("/".intercalate es)

/-- Go's `filepath.Dir`: everything up to and including the last separator,
cleaned. -/
def Dir (path : String) : String :=
  Clean ⟨(path.data.reverse.dropWhile (fun c => c ≠ '/')).reverse⟩

/-! ## The world around the program -/

/-- A Go `error` as the program uses one: its text (`%v`) and the answer of
`os.IsPermission`. -/
structure GoError where
  msg : String
  isPermission : Bool
deriving DecidableEq, Repr

/-- What the scan sees at a path: a `DirEntry` that is not a directory, or a
directory with what `os.ReadDir` returns for it (the entries it could read, in
name order, and the error if reading failed). -/
inductive Node where
  | file (name : String)
  | dir (name : String) (entries : List Node) (readErr : Option GoError)

/-- The `d.Name()` of an entry. -/
def Node.name : Node → String
  | .file n => n
  | .dir n _ _ => n

/-- What the program does that can be observed from outside. -/
inductive Event where
  | print (text : String)
  | walkDir (root : String)
  | removeAll (path : String)
deriving DecidableEq, Repr

/-- The environment of one run.  `userCurrent` is the `HomeDir` of
`user.Current()` or its error; `lstat` is `os.Lstat` on a search root together
with the tree below it; `rangeOrder` is the order in which `range` yields the
keys of the map `uniquePaths` (unspecified in Go); `removeAll` is
`os.RemoveAll` on a filesystem state of type `σ`. -/
structure Env (σ : Type) where
  unicode : UnicodeTables
  userCurrent : Except GoError String
  lstat : String → Except GoError Node
  rangeOrder : List String → List String
  removeAll : σ → String → Option GoError × σ

/-- The state threaded through the interactive part: the unread standard
input, the filesystem, and the trace so far. -/
structure World (σ : Type) where
  stdin : List Char
  fs : σ
  out : List Event

/-- The method `ReadString` of `bufio.Reader`, with the error dropped as the
program does: the input up to and including the first `delim`, or all of it
when there is none. -/
def readString (delim : Char) : List Char → String × List Char
  | [] => ("", [])
  | c :: cs =>
    if c = delim then (⟨[c]⟩, cs)
    else ((⟨c :: (readString delim cs).1.data⟩ : String), (readString delim cs).2)

/-! ## `filepath.WalkDir` -/

mutual
/-- Go's `walkDir`: the callback on the entry; for a directory, `ReadDir`, a
second callback if that failed, then the entries in order.  A non-nil result
of the callback ends the walk (the callback of this program never returns
`SkipDir` or `SkipAll`). -/
def walkDir {S : Type} (fn : String → Option Node → Option GoError → S → S × Option GoError) :
    Node → String → S → S × Option GoError
  | .file name, path, st => fn path (some (.file name)) none st
  | .dir name entries readErr, path, st =>
    match fn path (some (.dir name entries readErr)) none st with
    | (st1, some e) => (st1, some e)
    | (st1, none) =>
      match readErr with
      | some re =>
        match fn path (some (.dir name entries readErr)) (some re) st1 with
        | (st2, some e) => (st2, some e)
        | (st2, none) => walkEntries fn entries path st2
      | none => walkEntries fn entries path st1
/-- The loop of `walkDir` over the entries of the directory at `path`. -/
def walkEntries {S : Type} (fn : String → Option Node → Option GoError → S → S × Option GoError) :
    List Node → String → S → S × Option GoError
  | [], _, st => (st, none)
  | d1 :: rest, path, st =>
    match walkDir fn d1 (Join [path, d1.name]) st with
    | (st1, some e) => (st1, some e)
    | (st1, none) => walkEntries fn rest path st1
end

/-- Go's `filepath.WalkDir`: if `Lstat` on the root fails the callback gets
the error (and no entry), otherwise the tree is walked. -/
def WalkDir {S : Type} (lstat : String → Except GoError Node) (root : String)
    (fn : String → Option Node → Option GoError → S → S × Option GoError) (st : S) :
    S × Option GoError :=
  match lstat root with
  | .error e => fn root none (some e) st
  | .ok info => walkDir fn info root st

/-! ## `findAssociatedFiles` -/

/-- The nine directories of `pathsToSearch`. -/
def pathsToSearch (homeDir : String) : List String :=
  [ Join [homeDir, "Library", "Application Support"],
    Join [homeDir, "Library", "Caches"],
    Join [homeDir, "Library", "Preferences"],
    Join [homeDir, "Library", "Logs"],
    Join [homeDir, "Library", "Saved Application State"],
    "/Library/Application Support",
    "/Library/Caches",
    "/Library/LaunchAgents",
    "/Library/LaunchDaemons" ]

/-- The statement `uniquePaths[currentPath] = struct{}{}` on the keys of the
map, kept in the order of first insertion. -/
def insertKey (uniquePaths : List String) (currentPath : String) : List String :=
  if currentPath ∈ uniquePaths then uniquePaths else uniquePaths ++ [currentPath]

/-- The closure passed to `filepath.WalkDir` for the search root `path`.  The
entry is absent only together with an error, and is not looked at then. -/
def walkFn (U : UnicodeTables) (path searchKeyword : String) (currentPath : String)
    (d : Option Node) (err : Option GoError) (uniquePaths : List String) :
    List String × Option GoError :=
  match err with
  | some e => if e.isPermission then (uniquePaths, none) else (uniquePaths, some e)
  | none =>
    if Dir currentPath = path then
      let baseName := ToLower U (ReplaceAll ((d.map Node.name).getD "") " " "")
      if Contains baseName searchKeyword then (insertKey uniquePaths currentPath, none)
      else (uniquePaths, none)
    else (uniquePaths, none)

/-- The line printed when `filepath.WalkDir` returns an error for `path`. -/
def scanWarning (path : String) (err : GoError) : Event :=
  .print ("⚠️  Could not fully search '" ++ path ++ "': " ++ err.msg ++ "\n")

/-- One round of the loop over `pathsToSearch`: the keys of `uniquePaths` and
the trace before, and after. -/
def searchRoot {σ : Type} (E : Env σ) (searchKeyword : String)
    (acc : List String × List Event) (path : String) : List String × List Event :=
  match WalkDir E.lstat path (walkFn E.unicode path searchKeyword) acc.1 with
  | (uniquePaths, some err) => (uniquePaths, acc.2 ++ [.walkDir path, scanWarning path err])
  | (uniquePaths, none) => (uniquePaths, acc.2 ++ [.walkDir path])

/-- The value of `searchKeyword` for an application name. -/
def searchKeyword (U : UnicodeTables) (appName : String) : String :=
  ToLower U (ReplaceAll appName " " "")

/-- The function `findAssociatedFiles`: its two results and what it does. -/
def findAssociatedFiles {σ : Type} (E : Env σ) (appName : String) :
    Except GoError (List String) × List Event :=
  match E.userCurrent with
  | .error err => (.error ⟨"could not get current user: " ++ err.msg, false⟩, [])
  | .ok homeDir =>
    let scan := (pathsToSearch homeDir).foldl
      (searchRoot E (searchKeyword E.unicode appName)) ([], [])
    (.ok (E.rangeOrder scan.1), scan.2)

/-! ## `deleteFiles` -/

/-- What `deleteFiles` prints after `os.RemoveAll file` returned `result`. -/
def deletionReport (file : String) (result : Option GoError) : List Event :=
  match result with
  | some err =>
    if err.isPermission then
      [ .print ("❌ PERMISSION DENIED for: " ++ file ++ "\n"),
        .print "   This file requires administrator privileges. To delete it, run this command in your terminal:\n",
        .print ("   sudo rm -rf \"" ++ file ++ "\"\n\n") ]
    else [ .print ("❌ ERROR deleting " ++ file ++ ": " ++ err.msg ++ "\n") ]
  | none => [ .print ("✅ DELETED: " ++ file ++ "\n") ]

/-- The loop of `deleteFiles` over `files`. -/
def deleteLoop {σ : Type} (E : Env σ) : List String → σ × List Event → σ × List Event
  | [], w => w
  | file :: rest, (fs, out) =>
    deleteLoop E rest
      ((E.removeAll fs file).2,
        out ++ [.print ("Attempting to delete: " ++ file ++ "\n"), .removeAll file]
          ++ deletionReport file (E.removeAll fs file).1)

/-- The function `deleteFiles`. -/
def deleteFiles {σ : Type} (E : Env σ) (files : List String) (w : World σ) : World σ :=
  let done := deleteLoop E files (w.fs, w.out ++ [.print "\n🚀 Starting deletion...\n"])
  { stdin := w.stdin, fs := done.1, out := done.2 ++ [.print "\n✨ Cleanup process finished.\n"] }

/-! ## `handleDeletion` -/

/-- The listing and the prompt printed at the top of every round. -/
def menu (files : List String) : List Event :=
  [.print "\nFound potential leftover files and folders:\n"]
    ++ files.enum.map (fun p => .print ("  [" ++ toString (p.1 + 1) ++ "] " ++ p.2 ++ "\n"))
    ++ [ .print "\nEnter numbers to delete (e.g., 1 3 4), 'all' to delete everything, or 'quit' to exit.\n",
         .print "> " ]

/-- The line printed for a token that is not a valid index. -/
def invalidSelection (idxStr : String) : Event :=
  .print ("Invalid selection: '" ++ idxStr ++ "'. Please enter a valid number.\n")

/-- The loop over the tokens of the input line: `filesToDelete` and the
lines printed, before and after. -/
def selectLoop (files : List String) : List String → List String × List Event →
    List String × List Event
  | [], acc => acc
  | idxStr :: rest, (filesToDelete, out) =>
    match Atoi idxStr with
    | none => selectLoop files rest (filesToDelete, out ++ [invalidSelection idxStr])
    | some idx =>
      if idx < 1 ∨ idx > (files.length : Int) then
        selectLoop files rest (filesToDelete, out ++ [invalidSelection idxStr])
      else selectLoop files rest (filesToDelete ++ [files.getD (idx - 1).toNat ""], out)

/-- The value of `filesToDelete` for the trimmed input line, and what is
printed while it is computed. -/
def selection (U : UnicodeTables) (files : List String) (input : String) :
    List String × List Event :=
  if EqualFold U input "all" then (files, [])
  else selectLoop files (Fields input) ([], [])

/-- The summary and the confirmation prompt. -/
def deletionSummary (filesToDelete : List String) : List Event :=
  [.print "\n--- DELETION SUMMARY ---\n"]
    ++ filesToDelete.map (fun file => .print ("  - " ++ file ++ "\n"))
    ++ [.print "Proceed with deleting these items? [y/N]: "]

/-- The function `handleDeletion`.  `fuel` bounds the number of rounds of its
`for` loop; `none` means the loop was still running when the fuel ran out. -/
def handleDeletion {σ : Type} (E : Env σ) (files : List String) : Nat → World σ → Option (World σ)
  | 0, _ => none
  | fuel + 1, w =>
    let line := readString '\n' w.stdin
    let input := TrimSpace line.1
    if EqualFold E.unicode input "quit" then
      some { stdin := line.2, fs := w.fs,
             out := w.out ++ menu files ++ [.print "Exiting without changes.\n"] }
    else
      let sel := selection E.unicode files input
      if sel.1.length > 0 then
        let confirm := readString '\n' line.2
        let asked : World σ :=
          { stdin := confirm.2, fs := w.fs,
            out := w.out ++ menu files ++ sel.2 ++ deletionSummary sel.1 }
        if TrimSpace (ToLower E.unicode confirm.1) = "y" then some (deleteFiles E sel.1 asked)
        else handleDeletion E files fuel { asked with out := asked.out ++ [.print "Deletion cancelled.\n"] }
      else handleDeletion E files fuel { stdin := line.2, fs := w.fs, out := w.out ++ menu files ++ sel.2 }

/-! ## `main` -/

/-- The function `main`; `fuel` is the bound on the rounds of `handleDeletion`. -/
def main {σ : Type} (E : Env σ) (fuel : Nat) (w : World σ) : Option (World σ) :=
  let out0 := w.out ++ [ .print "--- Application Cleaner (macOS Edition) ---\n",
                         .print "Enter the name of the application to clean up (e.g., Docker): " ]
  let line := readString '\n' w.stdin
  let appName := TrimSpace line.1
  if appName = "" then
    some { stdin := line.2, fs := w.fs,
           out := out0 ++ [.print "Application name cannot be empty. Exiting.\n"] }
  else
    let out1 := out0 ++ [.print ("\n🔍 Searching for files related to '" ++ appName ++ "'...\n")]
    match findAssociatedFiles E appName with
    | (.error err, scanned) =>
      some { stdin := line.2, fs := w.fs,
             out := out1 ++ scanned ++ [.print ("Error during file search: " ++ err.msg ++ "\n")] }
    | (.ok foundFiles, scanned) =>
      if foundFiles.length = 0 then
        some { stdin := line.2, fs := w.fs,
               out := out1 ++ scanned ++ [.print "✅ No associated files found in common locations.\n"] }
      else handleDeletion E foundFiles fuel { stdin := line.2, fs := w.fs, out := out1 ++ scanned }

/-! ## The specification's reading of a selection line and of a deletion run -/

/-- The results of the successive calls of `os.RemoveAll` on `files`, each
paired with its path, starting from the filesystem `fs`. -/
def removalResults {σ : Type} (E : Env σ) : List String → σ → List (String × Option GoError)
  | [], _ => []
  | file :: rest, fs =>
    (file, (E.removeAll fs file).1) :: removalResults E rest (E.removeAll fs file).2

/-- The paths of the `os.RemoveAll` calls in a trace, in order. -/
def removedPaths (out : List Event) : List String :=
  out.filterMap (fun ev => match ev with
    | .removeAll path => some path
    | _ => none)

/-! ## Well-formed directory trees and clean paths -/

/-- A name `os.ReadDir` can return for an entry: not empty, without a
separator, and neither `.` nor `..`. -/
def validName (name : String) : Bool :=
  decide (name.data ≠ []) && !name.data.contains '/' && decide (name.data ≠ ['.'])
    && decide (name.data ≠ ['.', '.'])

mutual
/-- Every entry below this node has a valid name (for a directory: its
entries and theirs; the node's own name is not looked at). -/
def Node.entriesValid : Node → Bool
  | .file _ => true
  | .dir _ entries _ => entriesValidList entries
/-- Every node of the list has a valid name, and so has everything below. -/
def entriesValidList : List Node → Bool
  | [] => true
  | d :: rest => validName d.name && d.entriesValid && entriesValidList rest
end

mutual
/-- The error that ends the walk of the tree at a node, read off the tree: in
walk order, the first error of `os.ReadDir` that is not a permission error
(`none` when there is none; a permission error is passed over, and the entries
that were read are walked). -/
def Node.hardError : Node → Option GoError
  | .file _ => none
  | .dir _ entries readErr =>
    match readErr with
    | some re => if re.isPermission then hardErrorList entries else some re
    | none => hardErrorList entries
/-- The error that ends the walk of a list of entries: that of the first entry
that has one. -/
def hardErrorList : List Node → Option GoError
  | [] => none
  | d :: rest =>
    match d.hardError with
    | some e => some e
    | none => hardErrorList rest
end

/-- Whether the walk of a search root gets to an entry of the root, read off
the tree: reading the root gave no error or a permission error (`readErr`), and
no tree of an entry listed before it (`before`) holds an error that ends the
walk. -/
def reached (readErr : Option GoError) (before : List Node) : Bool :=
  (match readErr with
    | some re => re.isPermission
    | none => true) && (hardErrorList before).isNone

/-- A path that `filepath.Clean` leaves alone and that is neither the root
nor the current directory. -/
def CleanDir (p : String) : Prop :=
  Clean p = p ∧ p ≠ "/" ∧ p ≠ "."


/-- A list of elements that the loop of `filepath.Clean` writes out unchanged:
each element, read after the ones before it, is appended. -/
def StableStack (b : Bool) (S : List (List Char)) : Prop :=
  ∀ (S1 : List (List Char)) (c : List Char) (S2 : List (List Char)),
    S = S1 ++ c :: S2 → cleanStep b S1 c = S1 ++ [c]

/-- Elements that are not empty and hold no separator. -/
def PlainElems (S : List (List Char)) : Prop :=
  ∀ c ∈ S, c ≠ [] ∧ '/' ∉ c


/-- The path `filepath.WalkDir` computes for the entry reached from `root`
through the directories `names` (one `filepath.Join` per level). -/
def descend (root : String) (names : List String) : String :=
  names.foldl (fun p n => Join [p, n]) root

/-- The error, if any, that keeps the search root `r` from being read: the
error of `os.Lstat` on it, or the error of `os.ReadDir` on it when no entry
was read. -/
def rootReadError {σ : Type} (E : Env σ) (r : String) : Option GoError :=
  match E.lstat r with
  | .error e => some e
  | .ok (.dir _ [] (some e)) => some e
  | .ok _ => none


/-- The test of `walkFn` on the name of an entry: the name, without its
spaces and in lower case, contains the keyword. -/
def nameMatches (U : UnicodeTables) (searchKeyword name : String) : Bool :=
  Contains (ToLower U (ReplaceAll name " " "")) searchKeyword

/-- A path the walk of `root` may add: the path of a direct child of `root`
whose name passes the test. -/
def DirectMatch (U : UnicodeTables) (root searchKeyword q : String) : Prop :=
  ∃ name : String, validName name = true ∧ q = root ++ "/" ++ name ∧
    nameMatches U searchKeyword name = true

/-! ## A sample run -/

/-- Unicode tables for runs that meet ASCII only: no rune above U+007F has a
lower case or a fold partner. -/
def sampleTables : UnicodeTables :=
  { lowerTable := fun r => r, foldTable := fun _ _ => false }

/-- The error of a path that is not there. -/
def notExist (path : String) : GoError :=
  { msg := "lstat " ++ path ++ ": no such file or directory", isPermission := false }

/-- The error of a path the user may not read or remove. -/
def permissionDenied (op path : String) : GoError :=
  { msg := op ++ " " ++ path ++ ": permission denied", isPermission := true }

/-- The error of a directory on a failing disk. -/
def ioError (path : String) : GoError :=
  { msg := "readdirent " ++ path ++ ": input/output error", isPermission := false }

/-- The search roots of the sample machine, for the home directory
`/Users/alice`. -/
def sampleLstat (path : String) : Except GoError Node :=
  if path = "/Users/alice/Library/Application Support" then
    .ok (.dir "Application Support" [] none)
  else if path = "/Users/alice/Library/Caches" then
    .ok (.dir "Caches"
      [.dir "Docker Desktop" [.file "docker.log"] none, .file "notes.txt"] none)
  else if path = "/Users/alice/Library/Preferences" then
    .ok (.dir "Preferences" [.file "com.docker.plist", .file "org.vim.plist"] none)
  else if path = "/Users/alice/Library/Logs" then
    .ok (.dir "Logs" [] none)
  else if path = "/Users/alice/Library/Saved Application State" then
    .ok (.dir "Saved Application State" []
      (some (permissionDenied "open" "/Users/alice/Library/Saved Application State")))
  else if path = "/Library/Application Support" then
    .ok (.dir "Application Support" [] none)
  else if path = "/Library/Caches" then
    .ok (.dir "Caches"
      [.dir "a" [] (some (ioError "/Library/Caches/a")), .file "docker"] none)
  else if path = "/Library/LaunchAgents" then
    .error (permissionDenied "lstat" "/Library/LaunchAgents")
  else .error (notExist path)

/-- The sample machine: the filesystem state is the list of the paths removed
so far, and `/Users/alice/Library/Preferences/com.docker.plist` may not be
removed. -/
def sampleEnv : Env (List String) :=
  { unicode := sampleTables
    userCurrent := .ok "/Users/alice"
    lstat := sampleLstat
    rangeOrder := List.reverse
    removeAll := fun fs path =>
      if path = "/Users/alice/Library/Preferences/com.docker.plist" then
        (some (permissionDenied "unlinkat" path), fs)
      else (none, fs ++ [path]) }

/-- The candidates of the sample machine for `Docker`, in an order `range`
may yield. -/
def sampleFound : List String :=
  [ "/Users/alice/Library/Preferences/com.docker.plist",
    "/Users/alice/Library/Caches/Docker Desktop" ]

/-- A second machine: under `/Library/Caches` a directory that may not be
read, then `docker`, then a directory on a failing disk, then `docker-old`;
no other search root exists. -/
def crowdedLstat (path : String) : Except GoError Node :=
  if path = "/Library/Caches" then
    .ok (.dir "Caches"
      [ .dir "Apple" [] (some (permissionDenied "open" "/Library/Caches/Apple")),
        .file "docker",
        .dir "zzz" [] (some (ioError "/Library/Caches/zzz")),
        .file "docker-old" ] none)
  else .error (notExist path)

/-- The second machine, otherwise like the sample machine. -/
def crowdedEnv : Env (List String) :=
  { sampleEnv with lstat := crowdedLstat }

/-! # Theorems -/


theorem replaceLoop_space (fuel : Nat) (s : List Char) (h : s.length ≤ fuel) :
    replaceLoop [' '] [] fuel s = s.filter (fun c => c ≠ ' ') := by
  induction fuel generalizing s with
  | zero =>
    have : s = [] := List.length_eq_zero.mp (Nat.le_zero.mp h)
    subst this; rfl
  | succ n ih =>
    cases s with
    | nil => rfl
    | cons c cs =>
      have hlen : cs.length ≤ n := by simpa using h
      by_cases hc : c = ' '
      · subst hc
        simp [replaceLoop, List.isPrefixOf, ih cs hlen]
      · have hc2 : ¬ ' ' = c := fun h => hc h.symm
        simp [replaceLoop, List.isPrefixOf, hc, hc2, ih cs hlen]

theorem ReplaceAll_space (s : String) :
    ReplaceAll s " " "" = ⟨s.data.filter (fun c => c ≠ ' ')⟩ := by
  have h : (" " : String).data = [' '] := rfl
  have h2 : ("" : String).data = [] := rfl
  simp [ReplaceAll, h, h2, replaceLoop_space]

theorem isSpace_space : isSpace ' ' = true := by decide

theorem TrimSpace_last_not_space (s : String) (h : TrimSpace s ≠ "") :
    ∃ c ∈ (TrimSpace s).data, isSpace c = false := by
  unfold TrimSpace at h ⊢
  simp only
  generalize hl : (List.dropWhile isSpace s.data).reverse.dropWhile isSpace = l at h ⊢
  cases l with
  | nil => exact absurd rfl h
  | cons c cs =>
    refine ⟨c, by simp, ?_⟩
    have := List.head_dropWhile_not isSpace (List.dropWhile isSpace s.data).reverse
    simp [hl] at this
    exact this

theorem isPrefixOf_length {s sub : List Char} (h : sub.isPrefixOf s = true) :
    sub.length ≤ s.length := by
  induction sub generalizing s with
  | nil => simp
  | cons a as ih =>
    cases s with
    | nil => simp [List.isPrefixOf] at h
    | cons b bs =>
      simp only [List.isPrefixOf, Bool.and_eq_true] at h
      simpa using ih h.2

theorem containsChars_length {s sub : List Char} (h : containsChars s sub = true) :
    sub.length ≤ s.length := by
  induction s with
  | nil =>
    cases sub with
    | nil => simp
    | cons a as => simp [containsChars] at h
  | cons c cs ih =>
    simp only [containsChars, Bool.or_eq_true] at h
    rcases h with h | h
    · exact isPrefixOf_length h
    · exact Nat.le_succ_of_le (ih h)

theorem searchKeyword_data (U : UnicodeTables) (appName : String) :
    (searchKeyword U appName).data =
      (appName.data.filter (fun c => c ≠ ' ')).map (unicodeToLower U) := by
  simp [searchKeyword, ToLower, ReplaceAll_space]

/-- C10 (keyword is never empty when a scan runs).  Whatever line `main` reads,
if the application name `strings.TrimSpace` leaves is not empty then the
`searchKeyword` that `findAssociatedFiles` derives from it is not empty, and
the substring test rejects every normalised base name shorter than it (the
empty one among them), so it does not match every entry. -/
theorem searchKeyword_nonempty (U : UnicodeTables) (line : String)
    (h : TrimSpace line ≠ "") :
    searchKeyword U (TrimSpace line) ≠ "" ∧
      ∀ baseName : String, baseName.length < (searchKeyword U (TrimSpace line)).length →
        Contains baseName (searchKeyword U (TrimSpace line)) = false := by
  have hne : (searchKeyword U (TrimSpace line)).data ≠ [] := by
    obtain ⟨c, hc, hsp⟩ := TrimSpace_last_not_space line h
    have hcs : c ≠ ' ' := by
      intro hEq
      rw [hEq, isSpace_space] at hsp
      exact Bool.noConfusion hsp
    have hmem : c ∈ (TrimSpace line).data.filter (fun c => c ≠ ' ') := by
      simp [List.mem_filter, hc, hcs]
    rw [searchKeyword_data]
    intro hnil
    rw [List.map_eq_nil_iff] at hnil
    rw [hnil] at hmem
    exact absurd hmem (List.not_mem_nil c)
  refine ⟨?_, ?_⟩
  · intro hEq
    exact hne (by rw [hEq])
  · intro baseName hlt
    cases hcon : Contains baseName (searchKeyword U (TrimSpace line)) with
    | false => rfl
    | true =>
      have := containsChars_length hcon
      simp only [String.length] at hlt
      omega

theorem TrimSpace_blank (s : String) (h : ∀ c ∈ s.data, isSpace c = true) : TrimSpace s = "" := by
  have h1 : List.dropWhile isSpace s.data = [] := by
    rw [List.dropWhile_eq_nil_iff]
    exact h
  simp [TrimSpace, h1]

/-- C9 (empty application name).  If every rune of the first line read is white
space (an empty line included), `main` returns after the banner, the prompt and
the message that the name cannot be empty: no `WalkDir`, no `RemoveAll`, the
filesystem as it was, for every bound on the rounds of the menu. -/
theorem main_blank_name {σ : Type} (E : Env σ) (fuel : Nat) (w : World σ)
    (hblank : ∀ c ∈ (readString '\n' w.stdin).1.data, isSpace c = true) :
    main E fuel w =
      some { stdin := (readString '\n' w.stdin).2, fs := w.fs,
             out := w.out ++ [ .print "--- Application Cleaner (macOS Edition) ---\n",
                               .print "Enter the name of the application to clean up (e.g., Docker): ",
                               .print "Application name cannot be empty. Exiting.\n" ] } := by
  simp [main, TrimSpace_blank _ hblank]

theorem foldRune_toLower (U : UnicodeTables) (a : Char) : foldRune U a a.toLower = true := by
  by_cases hup : 65 ≤ a.toNat ∧ a.toNat ≤ 90
  · obtain ⟨h1, h2⟩ := hup
    have ha : a = Char.ofNat a.toNat := (Char.ofNat_toNat a).symm
    generalize a.toNat = n at h1 h2 ha
    subst ha
    interval_cases n <;> rfl
  · have hlow : a.toLower = a := by
      unfold Char.toLower
      simp only [ge_iff_le]
      rw [if_neg hup]
    rw [hlow]
    simp [foldRune]

theorem equalFoldChars_toLower (U : UnicodeTables) (s : List Char) :
    equalFoldChars U s (s.map Char.toLower) = true := by
  induction s with
  | nil => rfl
  | cons a s ih => simp [equalFoldChars, foldRune_toLower, ih]

theorem equalFoldChars_length (U : UnicodeTables) :
    ∀ (s t : List Char), equalFoldChars U s t = true → s.length = t.length
  | [], [], _ => rfl
  | [], _ :: _, h => by simp [equalFoldChars] at h
  | _ :: _, [], h => by simp [equalFoldChars] at h
  | a :: s, b :: t, h => by
    simp only [equalFoldChars, Bool.and_eq_true] at h
    simp [equalFoldChars_length U s t h.2]

theorem EqualFold_of_lower (U : UnicodeTables) (input target : String)
    (h : input.data.map Char.toLower = target.data) : EqualFold U input target = true := by
  unfold EqualFold
  rw [← h]
  exact equalFoldChars_toLower U input.data

theorem EqualFold_false_of_length (U : UnicodeTables) (input target : String)
    (h : input.data.length ≠ target.data.length) : EqualFold U input target = false := by
  cases hEq : EqualFold U input target with
  | false => rfl
  | true => exact absurd (equalFoldChars_length U _ _ hEq) h

/-- C7 (quit short-circuit).  If the line read at the main prompt, with the
surrounding white space trimmed, spells `quit` in any mix of upper and lower
case, then the round that read it ends `handleDeletion`: only the menu and
`Exiting without changes.` are added to the trace (no `RemoveAll`), and the
filesystem is the one the round started with. -/
theorem quit_ends_loop {σ : Type} (E : Env σ) (files : List String) (fuel : Nat) (w : World σ)
    (hquit : (TrimSpace (readString '\n' w.stdin).1).data.map Char.toLower = "quit".data) :
    handleDeletion E files (fuel + 1) w =
      some { stdin := (readString '\n' w.stdin).2, fs := w.fs,
             out := w.out ++ menu files ++ [.print "Exiting without changes.\n"] } := by
  have h := EqualFold_of_lower E.unicode _ "quit" hquit
  simp [handleDeletion, h]

/-- C8 (all-selection).  If the trimmed line read at the main prompt spells
`all` in any mix of upper and lower case, then `filesToDelete` is the listed
candidates themselves, in listing order, with no warning printed; and when the
list is not empty the round shows the summary of exactly these and, on
confirmation, calls `deleteFiles` on exactly these (otherwise it goes back to
the menu). -/
theorem all_selects_listing {σ : Type} (E : Env σ) (files : List String) (fuel : Nat)
    (w : World σ)
    (hall : (TrimSpace (readString '\n' w.stdin).1).data.map Char.toLower = "all".data) :
    selection E.unicode files (TrimSpace (readString '\n' w.stdin).1) = (files, []) ∧
      (files ≠ [] →
        handleDeletion E files (fuel + 1) w =
          if TrimSpace (ToLower E.unicode
              (readString '\n' (readString '\n' w.stdin).2).1) = "y" then
            some (deleteFiles E files
              { stdin := (readString '\n' (readString '\n' w.stdin).2).2, fs := w.fs,
                out := w.out ++ menu files ++ deletionSummary files })
          else
            handleDeletion E files fuel
              { stdin := (readString '\n' (readString '\n' w.stdin).2).2, fs := w.fs,
                out := w.out ++ menu files ++ deletionSummary files
                  ++ [.print "Deletion cancelled.\n"] }) := by
  have hA := EqualFold_of_lower E.unicode _ "all" hall
  have hlen : (TrimSpace (readString '\n' w.stdin).1).data.length ≠ ("quit" : String).data.length := by
    have := congrArg List.length hall
    simp only [List.length_map] at this
    rw [this]
    decide
  have hQ := EqualFold_false_of_length E.unicode _ "quit" hlen
  have hsel : selection E.unicode files (TrimSpace (readString '\n' w.stdin).1) = (files, []) := by
    simp [selection, hA]
  refine ⟨hsel, ?_⟩
  intro hne
  have hpos : files.length > 0 := List.length_pos.mpr hne
  simp [handleDeletion, hQ, hsel, hpos]

/-- C4 (confirmation gate).  In a round whose line is not `quit` and whose
selection is not empty, if the confirmation line, lower-cased and with the
surrounding white space trimmed, is not `y`, then `deleteFiles` is not called:
the round adds the menu, the warnings, the summary and `Deletion cancelled.`
to the trace (no `RemoveAll`), leaves the filesystem as it was, and
`handleDeletion` goes on with the next round on the same candidate list. -/
theorem unconfirmed_deletes_nothing {σ : Type} (E : Env σ) (files : List String) (fuel : Nat)
    (w : World σ)
    (hquit : EqualFold E.unicode (TrimSpace (readString '\n' w.stdin).1) "quit" = false)
    (hsel : (selection E.unicode files (TrimSpace (readString '\n' w.stdin).1)).1 ≠ [])
    (hconfirm : TrimSpace (ToLower E.unicode
        (readString '\n' (readString '\n' w.stdin).2).1) ≠ "y") :
    handleDeletion E files (fuel + 1) w =
      handleDeletion E files fuel
        { stdin := (readString '\n' (readString '\n' w.stdin).2).2, fs := w.fs,
          out := w.out ++ menu files
            ++ (selection E.unicode files (TrimSpace (readString '\n' w.stdin).1)).2
            ++ deletionSummary (selection E.unicode files (TrimSpace (readString '\n' w.stdin).1)).1
            ++ [.print "Deletion cancelled.\n"] } := by
  have hpos : (selection E.unicode files (TrimSpace (readString '\n' w.stdin).1)).1.length > 0 :=
    List.length_pos.mpr hsel
  simp [handleDeletion, hquit, hpos, hconfirm]

theorem deleteLoop_eq {σ : Type} (E : Env σ) (files : List String) :
    ∀ (fs : σ) (out : List Event),
      (deleteLoop E files (fs, out)).2 =
        out ++ (removalResults E files fs).flatMap (fun fr =>
          [.print ("Attempting to delete: " ++ fr.1 ++ "\n"), .removeAll fr.1]
            ++ deletionReport fr.1 fr.2) := by
  induction files with
  | nil => intro fs out; simp [deleteLoop, removalResults]
  | cons file rest ih =>
    intro fs out
    simp [deleteLoop, removalResults, ih, List.append_assoc]

theorem removalResults_fst {σ : Type} (E : Env σ) (files : List String) :
    ∀ fs : σ, (removalResults E files fs).map Prod.fst = files := by
  induction files with
  | nil => intro fs; rfl
  | cons file rest ih => intro fs; simp [removalResults, ih]

theorem removedPaths_append (a b : List Event) :
    removedPaths (a ++ b) = removedPaths a ++ removedPaths b := by
  simp [removedPaths, List.filterMap_append]

theorem removedPaths_report (file : String) (result : Option GoError) :
    removedPaths (deletionReport file result) = [] := by
  cases result with
  | none => rfl
  | some err =>
    by_cases h : err.isPermission = true
    · simp [deletionReport, h, removedPaths]
    · simp [deletionReport, h, removedPaths]

theorem removedPaths_blocks (rs : List (String × Option GoError)) :
    removedPaths (rs.flatMap (fun fr =>
          [.print ("Attempting to delete: " ++ fr.1 ++ "\n"), .removeAll fr.1]
            ++ deletionReport fr.1 fr.2)) = rs.map Prod.fst := by
  induction rs with
  | nil => rfl
  | cons r rest ih =>
    rw [List.flatMap_cons, removedPaths_append, removedPaths_append, ih, removedPaths_report]
    simp [removedPaths]

/-- C5 (isolation of failures in `deleteFiles`).  Whatever `os.RemoveAll`
answers, `deleteFiles` prints the opening line, then for each path of the input
list, in order, one block (the attempt line, the call of `os.RemoveAll` on that
path, and the report for the result of that call), then the closing line.  So
the calls of `os.RemoveAll` it adds to the trace are exactly the input list,
each path once and in order, and a permission error is reported with a line
that holds the command `sudo rm -rf "<path>"` with the path as given. -/
theorem deleteFiles_attempts_all {σ : Type} (E : Env σ) (files : List String) (w : World σ) :
    (deleteFiles E files w).out =
        w.out ++ [.print "\n🚀 Starting deletion...\n"]
          ++ (removalResults E files w.fs).flatMap (fun fr =>
              [.print ("Attempting to delete: " ++ fr.1 ++ "\n"), .removeAll fr.1]
                ++ deletionReport fr.1 fr.2)
          ++ [.print "\n✨ Cleanup process finished.\n"] ∧
      (removalResults E files w.fs).map Prod.fst = files ∧
      removedPaths (deleteFiles E files w).out = removedPaths w.out ++ files ∧
      (∀ (file : String) (err : GoError), err.isPermission = true →
        deletionReport file (some err) =
          [ .print ("❌ PERMISSION DENIED for: " ++ file ++ "\n"),
            .print "   This file requires administrator privileges. To delete it, run this command in your terminal:\n",
            .print ("   " ++ ("sudo rm -rf \"" ++ file ++ "\"") ++ "\n\n") ]) ∧
      (∀ (file : String) (err : GoError), err.isPermission = false →
        deletionReport file (some err) =
          [ .print ("❌ ERROR deleting " ++ file ++ ": " ++ err.msg ++ "\n") ]) ∧
      (∀ file : String, deletionReport file none = [ .print ("✅ DELETED: " ++ file ++ "\n") ]) := by
  have hout : (deleteFiles E files w).out =
        w.out ++ [.print "\n🚀 Starting deletion...\n"]
          ++ (removalResults E files w.fs).flatMap (fun fr =>
              [.print ("Attempting to delete: " ++ fr.1 ++ "\n"), .removeAll fr.1]
                ++ deletionReport fr.1 fr.2)
          ++ [.print "\n✨ Cleanup process finished.\n"] := by
    simp only [deleteFiles, deleteLoop_eq]
  refine ⟨hout, removalResults_fst E files w.fs, ?_, ?_, ?_, ?_⟩
  · rw [hout, removedPaths_append, removedPaths_append, removedPaths_append,
      removedPaths_blocks, removalResults_fst]
    simp [removedPaths]
  · intro file err h
    have hcmd : ("   sudo rm -rf \"" : String) = "   " ++ "sudo rm -rf \"" := by decide
    simp only [deletionReport, h, if_true]
    have hq : ("\"\n\n" : String) = "\"" ++ "\n\n" := by decide
    rw [hcmd, hq]
    simp only [String.append_assoc]
  · intro file err h
    simp [deletionReport, h]
  · intro file
    rfl

/-! ## Facts about `filepath.Clean`, `Join` and `Dir` -/

theorem splitSlash_ne_nil (x : List Char) : splitSlash x ≠ [] := by
  cases x with
  | nil => simp [splitSlash]
  | cons c cs =>
    unfold splitSlash
    by_cases h : c = '/'
    · simp [h]
    · simp only [h, if_false]
      cases splitSlash cs <;> simp

theorem splitSlash_append (x y : List Char) :
    splitSlash (x ++ '/' :: y) = splitSlash x ++ splitSlash y := by
  induction x with
  | nil => simp [splitSlash]
  | cons c cs ih =>
    by_cases h : c = '/'
    · simp [splitSlash, h, ih]
    · have hne := splitSlash_ne_nil cs
      cases hs : splitSlash cs with
      | nil => exact absurd hs hne
      | cons a t => simp [splitSlash, h, ih, hs]

theorem splitSlash_noslash (n : List Char) (h : '/' ∉ n) : splitSlash n = [n] := by
  induction n with
  | nil => rfl
  | cons c cs ih =>
    have hc : c ≠ '/' := fun e => h (by simp [e])
    have hcs : '/' ∉ cs := fun e => h (by simp [e])
    simp [splitSlash, hc, ih hcs]

theorem isRooted_append (x y : List Char) (hx : x ≠ []) : isRooted (x ++ y) = isRooted x := by
  cases x with
  | nil => exact absurd rfl hx
  | cons c cs => simp [isRooted]

theorem cleanStep_nil (b : Bool) (S : List (List Char)) : cleanStep b S [] = S := by
  simp [cleanStep]

theorem cleanStep_real (b : Bool) (S : List (List Char)) (c : List Char)
    (h1 : c ≠ []) (h2 : c ≠ ['.']) (h3 : c ≠ ['.', '.']) : cleanStep b S c = S ++ [c] := by
  simp [cleanStep, h1, h2, h3]

theorem stackOf_snoc (x n : List Char) (hx : x ≠ []) (hn : '/' ∉ n) :
    stackOf (x ++ '/' :: n) = cleanStep (isRooted x) (stackOf x) n := by
  simp [stackOf, splitSlash_append, splitSlash_noslash n hn, isRooted_append x _ hx]

theorem stackOf_slash (x : List Char) (hx : x ≠ []) : stackOf (x ++ ['/']) = stackOf x := by
  have h := stackOf_snoc x [] hx (by simp)
  rw [h, cleanStep_nil]

theorem joinSlash_snoc (S : List (List Char)) (n : List Char) (hS : S ≠ []) :
    joinSlash (S ++ [n]) = joinSlash S ++ '/' :: n := by
  induction S with
  | nil => exact absurd rfl hS
  | cons c rest ih =>
    cases rest with
    | nil => simp [joinSlash]
    | cons d rest2 =>
      have := ih (by simp)
      simp only [List.cons_append] at this ⊢
      simp [joinSlash, this]

theorem renderPath_snoc (b : Bool) (S : List (List Char)) (n : List Char) (hS : S ≠ []) :
    renderPath b (S ++ [n]) = renderPath b S ++ '/' :: n := by
  cases b with
  | true => simp [renderPath, joinSlash_snoc S n hS]
  | false => simp [renderPath, joinSlash_snoc S n hS, hS]

theorem renderPath_nil (b : Bool) : renderPath b [] = ['/'] ∨ renderPath b [] = ['.'] := by
  cases b <;> simp [renderPath, joinSlash]

theorem stackOf_ne_nil_of_clean (x : List Char) (hc : cleanChars x = x) (h1 : x ≠ ['/'])
    (h2 : x ≠ ['.']) : stackOf x ≠ [] ∧ x ≠ [] := by
  constructor
  · intro hS
    unfold cleanChars at hc
    rw [hS] at hc
    rcases renderPath_nil (isRooted x) with h | h
    · exact h1 (by rw [← hc, h])
    · exact h2 (by rw [← hc, h])
  · intro hx
    subst hx
    revert hc
    decide

theorem validName_iff (name : String) :
    validName name = true ↔
      name.data ≠ [] ∧ '/' ∉ name.data ∧ name.data ≠ ['.'] ∧ name.data ≠ ['.', '.'] := by
  simp [validName, and_assoc]

theorem cleanChars_child (x n : List Char) (hc : cleanChars x = x) (h1 : x ≠ ['/'])
    (h2 : x ≠ ['.']) (hn1 : n ≠ []) (hn2 : '/' ∉ n) (hn3 : n ≠ ['.']) (hn4 : n ≠ ['.', '.']) :
    cleanChars (x ++ '/' :: n) = x ++ '/' :: n := by
  obtain ⟨hS, hx⟩ := stackOf_ne_nil_of_clean x hc h1 h2
  unfold cleanChars
  rw [stackOf_snoc x n hx hn2, cleanStep_real _ _ n hn1 hn3 hn4, isRooted_append x _ hx,
    renderPath_snoc _ _ _ hS]
  unfold cleanChars at hc
  rw [hc]

theorem cleanChars_slash (x : List Char) (hx : x ≠ []) : cleanChars (x ++ ['/']) = cleanChars x := by
  unfold cleanChars
  rw [stackOf_slash x hx, isRooted_append x _ hx]

theorem dropWhile_append_all {α : Type} (p : α → Bool) (a b : List α) (h : ∀ c ∈ a, p c = true) :
    (a ++ b).dropWhile p = b.dropWhile p := by
  induction a with
  | nil => rfl
  | cons c cs ih =>
    have hc : p c = true := h c (by simp)
    simp [List.dropWhile, hc, ih (fun d hd => h d (by simp [hd]))]

theorem dir_chars_child (x n : List Char) (hn : '/' ∉ n) :
    (((x ++ '/' :: n).reverse.dropWhile (fun c => c ≠ '/')).reverse) = x ++ ['/'] := by
  have h : (x ++ '/' :: n).reverse = n.reverse ++ ('/' :: x.reverse) := by simp
  rw [h, dropWhile_append_all]
  · simp [List.dropWhile]
  · intro c hcm
    have : c ≠ '/' := fun e => hn (by simpa [e] using hcm)
    simp [this]

theorem String_ne_of_data {a b : String} (h : a.data ≠ b.data) : a ≠ b := fun e => h (by rw [e])

theorem String_eq_of_data {a b : String} (h : a.data = b.data) : a = b := by
  cases a; cases b; simp at h; simp [h]

theorem Join_pair (r n : String) (hr : r ≠ "") : Join [r, n] = Clean (r ++ "/" ++ n) := by
  simp [Join, List.dropWhile, hr, String.intercalate, String.intercalate.go]

theorem slash_data : ("/" : String).data = ['/'] := rfl

theorem CleanDir_data (p : String) (h : CleanDir p) :
    cleanChars p.data = p.data ∧ p.data ≠ ['/'] ∧ p.data ≠ ['.'] := by
  obtain ⟨h1, h2, h3⟩ := h
  refine ⟨?_, ?_, ?_⟩
  · have := congrArg String.data h1
    simpa [Clean] using this
  · intro e; exact h2 (String_eq_of_data (by rw [e]))
  · intro e; exact h3 (String_eq_of_data (by rw [e]))

/-- The path of an entry of a clean directory: `Join` appends the separator
and the name, the result is clean again, and `Dir` gives the directory back. -/
theorem child_path (r n : String) (hr : CleanDir r) (hn : validName n = true) :
    Join [r, n] = r ++ "/" ++ n ∧ CleanDir (r ++ "/" ++ n) ∧ Dir (r ++ "/" ++ n) = r := by
  obtain ⟨hc, h1, h2⟩ := CleanDir_data r hr
  obtain ⟨hn1, hn2, hn3, hn4⟩ := (validName_iff n).mp hn
  obtain ⟨_, hx⟩ := stackOf_ne_nil_of_clean r.data hc h1 h2
  have hrne : r ≠ "" := fun e => hx (by rw [e])
  have hdata : (r ++ "/" ++ n).data = r.data ++ '/' :: n.data := by
    simp [String.data_append, slash_data]
  have hclean : Clean (r ++ "/" ++ n) = r ++ "/" ++ n := by
    apply String_eq_of_data
    simp only [Clean, hdata]
    exact cleanChars_child r.data n.data hc h1 h2 hn1 hn2 hn3 hn4
  refine ⟨by rw [Join_pair r n hrne, hclean], ⟨hclean, ?_, ?_⟩, ?_⟩
  · apply String_ne_of_data
    rw [hdata]
    cases hrd : r.data with
    | nil => exact absurd hrd hx
    | cons a as => simp [slash_data]
  · apply String_ne_of_data
    rw [hdata]
    cases hrd : r.data with
    | nil => exact absurd hrd hx
    | cons a as => simp
  · apply String_eq_of_data
    simp only [Dir, Clean, hdata]
    rw [dir_chars_child r.data n.data hn2, cleanChars_slash r.data hx]
    exact hc

theorem cleanStep_cases (b : Bool) (S : List (List Char)) (c : List Char) :
    cleanStep b S c = S ∨ cleanStep b S c = S.dropLast ∨
      (cleanStep b S c = S ++ [c] ∧ c ≠ []) := by
  unfold cleanStep
  by_cases h1 : c = [] ∨ c = ['.']
  · simp [h1]
  · rw [if_neg h1]
    have hc : c ≠ [] := fun e => h1 (Or.inl e)
    by_cases h2 : c = ['.', '.']
    · rw [if_pos h2]
      cases hl : S.getLast? with
      | none =>
        have hS : S = [] := List.getLast?_eq_none_iff.mp hl
        subst hS
        cases b <;> simp [h2]
      | some top =>
        by_cases h3 : top = ['.', '.']
        · cases b <;> simp [h3, hc]
        · simp [h3]
    · rw [if_neg h2]
      exact Or.inr (Or.inr ⟨rfl, hc⟩)

theorem eq_nil_or_snoc {α : Type} (l : List α) : l = [] ∨ ∃ (L : List α) (b : α), l = L ++ [b] := by
  rcases List.eq_nil_or_concat l with h | ⟨L, b, h⟩
  · exact Or.inl h
  · exact Or.inr ⟨L, b, by rw [h, List.concat_eq_append]⟩

theorem snoc_decomp {α : Type} (S S1 S2 : List α) (c x : α) (h : S ++ [c] = S1 ++ x :: S2) :
    (S2 = [] ∧ S1 = S ∧ x = c) ∨ ∃ S2' : List α, S2 = S2' ++ [c] ∧ S = S1 ++ x :: S2' := by
  rcases eq_nil_or_snoc S2 with h2 | ⟨S2', y, h2⟩
  · subst h2
    have := List.append_inj' h rfl
    simp at this
    exact Or.inl ⟨rfl, this.1.symm, this.2.symm⟩
  · subst h2
    have h' : S ++ [c] = (S1 ++ x :: S2') ++ [y] := by simpa using h
    have := List.append_inj' h' rfl
    simp at this
    exact Or.inr ⟨S2', by rw [this.2], this.1⟩

theorem stable_nil (b : Bool) : StableStack b [] := by
  intro S1 c S2 h
  simp at h

theorem stable_dropLast (b : Bool) (S : List (List Char)) (h : StableStack b S) :
    StableStack b S.dropLast := by
  intro S1 c S2 hd
  rcases eq_nil_or_snoc S with hS | ⟨S', y, hS⟩
  · subst hS; simp at hd
  · subst hS
    rw [List.dropLast_concat] at hd
    exact h S1 c (S2 ++ [y]) (by rw [hd]; simp)

theorem stable_step (b : Bool) (S : List (List Char)) (c : List Char) (h : StableStack b S) :
    StableStack b (cleanStep b S c) := by
  rcases cleanStep_cases b S c with e | e | ⟨e, _⟩
  · rw [e]; exact h
  · rw [e]; exact stable_dropLast b S h
  · intro S1 x S2 hd
    rw [e] at hd
    rcases snoc_decomp S S1 S2 c x hd with ⟨_, h1, h2⟩ | ⟨S2', _, h2⟩
    · subst h1; subst h2; exact e
    · exact h S1 x S2' h2

theorem stable_fold (b : Bool) (L : List (List Char)) :
    ∀ acc, StableStack b acc → StableStack b (L.foldl (cleanStep b) acc) := by
  induction L with
  | nil => intro acc h; exact h
  | cons c rest ih => intro acc h; exact ih _ (stable_step b acc c h)

theorem fold_of_stable (b : Bool) (S : List (List Char)) (h : StableStack b S) :
    S.foldl (cleanStep b) [] = S := by
  induction S using List.reverseRecOn with
  | nil => rfl
  | append_singleton S' c ih =>
    have hS' : StableStack b S' := by
      have := stable_dropLast b _ h
      rwa [List.dropLast_concat] at this
    rw [List.foldl_append, ih hS']
    simp only [List.foldl_cons, List.foldl_nil]
    exact h S' c [] rfl

theorem plain_step (b : Bool) (S : List (List Char)) (c : List Char) (h : PlainElems S)
    (hc : '/' ∉ c) : PlainElems (cleanStep b S c) := by
  rcases cleanStep_cases b S c with e | e | ⟨e, hne⟩
  · rw [e]; exact h
  · rw [e]; intro d hd; exact h d (List.mem_of_mem_dropLast hd)
  · rw [e]
    intro d hd
    rcases List.mem_append.mp hd with hd | hd
    · exact h d hd
    · have : d = c := by simpa using hd
      subst this
      exact ⟨hne, hc⟩

theorem plain_fold (b : Bool) (L : List (List Char)) (hL : ∀ c ∈ L, '/' ∉ c) :
    ∀ acc, PlainElems acc → PlainElems (L.foldl (cleanStep b) acc) := by
  induction L with
  | nil => intro acc h; exact h
  | cons c rest ih =>
    intro acc h
    exact ih (fun d hd => hL d (by simp [hd])) _ (plain_step b acc c h (hL c (by simp)))

theorem splitSlash_plain (x : List Char) : ∀ c ∈ splitSlash x, '/' ∉ c := by
  induction x with
  | nil => intro c hc; simp [splitSlash] at hc; simp [hc]
  | cons a as ih =>
    intro c hc
    unfold splitSlash at hc
    by_cases ha : a = '/'
    · simp only [ha, if_true, List.mem_cons] at hc
      rcases hc with hc | hc
      · simp [hc]
      · exact ih c hc
    · simp only [ha, if_false] at hc
      cases hs : splitSlash as with
      | nil => exact absurd hs (splitSlash_ne_nil as)
      | cons h t =>
        rw [hs] at hc ih
        simp only [List.mem_cons] at hc
        rcases hc with hc | hc
        · subst hc
          have := ih h (by simp)
          intro hm
          rcases List.mem_cons.mp hm with e | e
          · exact ha e.symm
          · exact this e
        · exact ih c (by simp [hc])

theorem stackOf_stable (x : List Char) :
    StableStack (isRooted x) (stackOf x) ∧ PlainElems (stackOf x) :=
  ⟨stable_fold _ _ _ (stable_nil _),
    plain_fold _ _ (splitSlash_plain x) _ (fun _ h => absurd h (List.not_mem_nil _))⟩

theorem splitSlash_join (S : List (List Char)) (hP : PlainElems S) (hS : S ≠ []) :
    splitSlash (joinSlash S) = S := by
  induction S with
  | nil => exact absurd rfl hS
  | cons c rest ih =>
    have hc : '/' ∉ c := (hP c (by simp)).2
    cases rest with
    | nil => simp [joinSlash, splitSlash_noslash c hc]
    | cons d rest2 =>
      have hrest : PlainElems (d :: rest2) := fun e he => hP e (by simp [he])
      simp only [joinSlash]
      rw [splitSlash_append, splitSlash_noslash c hc, ih hrest (by simp)]
      rfl

theorem isRooted_joinSlash (S : List (List Char)) (hP : PlainElems S) (hS : S ≠ []) :
    isRooted (joinSlash S) = false := by
  cases S with
  | nil => exact absurd rfl hS
  | cons c rest =>
    obtain ⟨h1, h2⟩ := hP c (by simp)
    cases c with
    | nil => exact absurd rfl h1
    | cons a as =>
      have ha : a ≠ '/' := fun e => h2 (by simp [e])
      cases rest <;> simp [joinSlash, isRooted, ha]

theorem stackOf_render (b : Bool) (S : List (List Char)) (hst : StableStack b S)
    (hpl : PlainElems S) (hS : S ≠ []) :
    isRooted (renderPath b S) = b ∧ stackOf (renderPath b S) = S := by
  cases b with
  | true =>
    have h : renderPath true S = '/' :: joinSlash S := by simp [renderPath]
    have hr : isRooted ('/' :: joinSlash S) = true := by simp [isRooted]
    have hsp : splitSlash ('/' :: joinSlash S) = [] :: S := by
      simp [splitSlash, splitSlash_join _ hpl hS]
    rw [h]
    refine ⟨hr, ?_⟩
    rw [stackOf, hr, hsp]
    simp only [List.foldl_cons, cleanStep_nil]
    exact fold_of_stable true S hst
  | false =>
    have h : renderPath false S = joinSlash S := by simp [renderPath, hS]
    have hr : isRooted (joinSlash S) = false := isRooted_joinSlash _ hpl hS
    rw [h]
    refine ⟨hr, ?_⟩
    rw [stackOf, hr, splitSlash_join _ hpl hS]
    exact fold_of_stable false S hst

theorem cleanChars_idem (x : List Char) : cleanChars (cleanChars x) = cleanChars x := by
  obtain ⟨hst, hpl⟩ := stackOf_stable x
  by_cases hS : stackOf x = []
  · have h : cleanChars x = renderPath (isRooted x) [] := by rw [cleanChars, hS]
    rcases renderPath_nil (isRooted x) with e | e
    · rw [h, e]; decide
    · rw [h, e]; decide
  · obtain ⟨h1, h2⟩ := stackOf_render _ _ hst hpl hS
    have h : cleanChars x = renderPath (isRooted x) (stackOf x) := rfl
    rw [h]
    conv_lhs => rw [cleanChars, h1, h2]

theorem Clean_idem (p : String) : Clean (Clean p) = Clean p := by
  apply String_eq_of_data
  simp only [Clean]
  exact cleanChars_idem p.data

theorem cleanChars_append_name (y n : List Char) (hy : y ≠ []) (hS : stackOf y ≠ [])
    (hn1 : n ≠ []) (hn2 : '/' ∉ n) (hn3 : n ≠ ['.']) (hn4 : n ≠ ['.', '.']) :
    cleanChars (y ++ '/' :: n) = cleanChars y ++ '/' :: n := by
  unfold cleanChars
  rw [stackOf_snoc y n hy hn2, cleanStep_real _ _ n hn1 hn3 hn4, isRooted_append y _ hy,
    renderPath_snoc _ _ _ hS]

theorem joinSlash_snoc_length (S : List (List Char)) (n : List Char) :
    n.length ≤ (joinSlash (S ++ [n])).length := by
  by_cases hS : S = []
  · subst hS; simp [joinSlash]
  · rw [joinSlash_snoc S n hS]; simp; omega

theorem renderPath_snoc_length (b : Bool) (S : List (List Char)) (n : List Char) :
    n.length ≤ (renderPath b (S ++ [n])).length := by
  have := joinSlash_snoc_length S n
  cases b with
  | true => simp only [renderPath, if_true, List.length_cons]; omega
  | false => simp [renderPath]; exact this

theorem child_ne_parent (t X : String) : t ≠ t ++ "/" ++ X := by
  intro e
  have := congrArg (fun s : String => s.data.length) e
  simp [String.data_append, slash_data] at this

theorem Join_triple (home L X : String) (hh : home ≠ "") :
    Join [home, L, X] = Clean (home ++ "/" ++ L ++ "/" ++ X) := by
  simp [Join, List.dropWhile, hh, String.intercalate, String.intercalate.go]

/-- A search root under the home directory is a clean directory path, and it
is not its own parent. -/
theorem home_root (home X : String) (hX : validName X = true) :
    CleanDir (Join [home, "Library", X]) ∧
      Dir (Join [home, "Library", X]) ≠ Join [home, "Library", X] := by
  have hL : validName "Library" = true := by decide
  -- the parent `t` of the root is a clean directory, and the root is `t/X`
  have key : ∃ t : String, CleanDir t ∧ Join [home, "Library", X] = t ++ "/" ++ X := by
    by_cases hh : home = ""
    · subst hh
      refine ⟨"Library", ?_, ?_⟩
      · refine ⟨by decide, by decide, by decide⟩
      · have hc : CleanDir "Library" := ⟨by decide, by decide, by decide⟩
        have h1 : Join ["", "Library", X] = Join ["Library", X] := by
          simp [Join, List.dropWhile]
        rw [h1]
        exact (child_path "Library" X hc hX).1
    · refine ⟨Clean (home ++ "/" ++ "Library"), ?_, ?_⟩
      · obtain ⟨l1, l2, l3, l4⟩ := (validName_iff "Library").mp hL
        have hhd : home.data ≠ [] := fun e => hh (String_eq_of_data (by rw [e]))
        have hdata : (home ++ "/" ++ "Library").data = home.data ++ '/' :: ("Library" : String).data := by
          simp [String.data_append, slash_data]
        have hlen : 7 ≤ (Clean (home ++ "/" ++ "Library")).data.length := by
          simp only [Clean, hdata, cleanChars]
          rw [stackOf_snoc _ _ hhd l2, cleanStep_real _ _ _ l1 l3 l4]
          exact renderPath_snoc_length _ (stackOf home.data) ("Library" : String).data
        refine ⟨Clean_idem _, ?_, ?_⟩
        · intro e; rw [e] at hlen; revert hlen; decide
        · intro e; rw [e] at hlen; revert hlen; decide
      · rw [Join_triple home "Library" X hh]
        obtain ⟨l1, l2, l3, l4⟩ := (validName_iff "Library").mp hL
        obtain ⟨x1, x2, x3, x4⟩ := (validName_iff X).mp hX
        have hhd : home.data ≠ [] := fun e => hh (String_eq_of_data (by rw [e]))
        apply String_eq_of_data
        have hdata : (home ++ "/" ++ "Library" ++ "/" ++ X).data
            = (home.data ++ '/' :: ("Library" : String).data) ++ '/' :: X.data := by
          simp [String.data_append, slash_data]
        have hdata2 : (home ++ "/" ++ "Library").data
            = home.data ++ '/' :: ("Library" : String).data := by
          simp [String.data_append, slash_data]
        have hS : stackOf (home.data ++ '/' :: ("Library" : String).data) ≠ [] := by
          rw [stackOf_snoc _ _ hhd l2, cleanStep_real _ _ _ l1 l3 l4]
          simp
        simp only [Clean, hdata, String.data_append, slash_data, hdata2]
        rw [cleanChars_append_name _ _ (by simp) hS x1 x2 x3 x4]
        simp
  obtain ⟨t, ht, hj⟩ := key
  obtain ⟨_, hc, hd⟩ := child_path t X ht hX
  rw [hj]
  exact ⟨hc, by rw [hd]; exact child_ne_parent t X⟩

/-- Each of the nine search roots is a clean directory path and is not its own
parent, whatever the home directory is. -/
theorem roots_clean (home : String) :
    ∀ r ∈ pathsToSearch home, CleanDir r ∧ Dir r ≠ r := by
  intro r hr
  simp only [pathsToSearch, List.mem_cons, List.mem_singleton, List.not_mem_nil, or_false] at hr
  rcases hr with h | h | h | h | h | h | h | h | h
  · rw [h]; exact home_root home _ (by decide)
  · rw [h]; exact home_root home _ (by decide)
  · rw [h]; exact home_root home _ (by decide)
  · rw [h]; exact home_root home _ (by decide)
  · rw [h]; exact home_root home _ (by decide)
  · rw [h]; exact ⟨⟨by decide, by decide, by decide⟩, by decide⟩
  · rw [h]; exact ⟨⟨by decide, by decide, by decide⟩, by decide⟩
  · rw [h]; exact ⟨⟨by decide, by decide, by decide⟩, by decide⟩
  · rw [h]; exact ⟨⟨by decide, by decide, by decide⟩, by decide⟩

/-! ## Facts about the walk -/

theorem mem_insertKey (st : List String) (p q : String) :
    q ∈ insertKey st p ↔ q ∈ st ∨ q = p := by
  unfold insertKey
  by_cases h : p ∈ st
  · simp only [h, if_true]
    constructor
    · exact Or.inl
    · rintro (h1 | h1)
      · exact h1
      · rw [h1]; exact h
  · simp [h]

theorem walkFn_err (U : UnicodeTables) (root kw p : String) (d : Option Node) (e : GoError)
    (st : List String) :
    walkFn U root kw p d (some e) st = (st, if e.isPermission then none else some e) := by
  unfold walkFn
  cases h : e.isPermission <;> simp [h]

theorem walkFn_ok (U : UnicodeTables) (root kw p : String) (d : Option Node) (st : List String) :
    walkFn U root kw p d none st =
      (if Dir p = root ∧ Contains (ToLower U (ReplaceAll ((d.map Node.name).getD "") " " "")) kw = true
        then insertKey st p else st, none) := by
  unfold walkFn
  by_cases h1 : Dir p = root
  · by_cases h2 : Contains (ToLower U (ReplaceAll ((d.map Node.name).getD "") " " "")) kw = true
    · simp [h1, h2]
    · simp [h1, h2]
  · simp [h1]

/-- A property of the state that every call of the callback keeps is kept by
the walk of a tree. -/
theorem walkDir_inv {S : Type} (fn : String → Option Node → Option GoError → S → S × Option GoError)
    (I : S → Prop) (hfn : ∀ p d err st, I st → I (fn p d err st).1) :
    ∀ (n : Node) (p : String) (st : S), I st → I (walkDir fn n p st).1 := by
  intro n
  induction n using Node.rec
    (motive_2 := fun es => ∀ (p : String) (st : S), I st → I (walkEntries fn es p st).1) with
  | file name =>
    intro p st h
    simp only [walkDir]
    exact hfn _ _ _ _ h
  | dir name entries readErr ih =>
    intro p st h
    simp only [walkDir]
    have h1 := hfn p (some (.dir name entries readErr)) none st h
    cases hc : fn p (some (.dir name entries readErr)) none st with
    | mk st1 e1 =>
      rw [hc] at h1
      cases e1 with
      | some e => exact h1
      | none =>
        cases readErr with
        | none => exact ih p st1 h1
        | some re =>
          have h2 := hfn p (some (.dir name entries (some re))) (some re) st1 h1
          cases hc2 : fn p (some (.dir name entries (some re))) (some re) st1 with
          | mk st2 e2 =>
            rw [hc2] at h2
            cases e2 with
            | some e => simp only [hc2]; exact h2
            | none => simp only [hc2]; exact ih p st2 h2
  | nil =>
    rename_i p st h
    simp only [walkEntries]
    exact h
  | cons d rest ih1 ih2 =>
    rename_i p st h
    simp only [walkEntries]
    have h1 := ih1 (Join [p, d.name]) st h
    cases hc : walkDir fn d (Join [p, d.name]) st with
    | mk st1 e1 =>
      rw [hc] at h1
      cases e1 with
      | some e => exact h1
      | none => exact ih2 p st1 h1

theorem WalkDir_inv {S : Type} (lstat : String → Except GoError Node) (root : String)
    (fn : String → Option Node → Option GoError → S → S × Option GoError)
    (I : S → Prop) (hfn : ∀ p d err st, I st → I (fn p d err st).1) (st : S) (h : I st) :
    I (WalkDir lstat root fn st).1 := by
  unfold WalkDir
  cases lstat root with
  | error e => exact hfn _ _ _ _ h
  | ok info => exact walkDir_inv fn I hfn info root st h

theorem walkFn_keeps_dir (U : UnicodeTables) (root kw : String) (st0 : List String) :
    ∀ (p : String) (d : Option Node) (err : Option GoError) (st : List String),
      (∀ q ∈ st, q ∈ st0 ∨ Dir q = root) →
      ∀ q ∈ (walkFn U root kw p d err st).1, q ∈ st0 ∨ Dir q = root := by
  intro p d err st h q hq
  cases err with
  | some e => rw [walkFn_err] at hq; exact h q hq
  | none =>
    rw [walkFn_ok] at hq
    by_cases hc : Dir p = root ∧
        Contains (ToLower U (ReplaceAll ((d.map Node.name).getD "") " " "")) kw = true
    · simp only [hc, and_self, if_true] at hq
      rcases (mem_insertKey st p q).mp hq with h1 | h1
      · exact h q h1
      · rw [h1]; exact Or.inr hc.1
    · rw [if_neg hc] at hq
      exact h q hq

theorem searchRoot_fst {σ : Type} (E : Env σ) (kw : String) (acc : List String × List Event)
    (r : String) :
    (searchRoot E kw acc r).1 = (WalkDir E.lstat r (walkFn E.unicode r kw) acc.1).1 := by
  unfold searchRoot
  cases hw : WalkDir E.lstat r (walkFn E.unicode r kw) acc.1 with
  | mk st e => cases e <;> rfl

theorem searchRoot_dir {σ : Type} (E : Env σ) (kw : String) (acc : List String × List Event)
    (r : String) : ∀ q ∈ (searchRoot E kw acc r).1, q ∈ acc.1 ∨ Dir q = r := by
  rw [searchRoot_fst]
  exact WalkDir_inv E.lstat r _ (fun st => ∀ q ∈ st, q ∈ acc.1 ∨ Dir q = r)
    (walkFn_keeps_dir E.unicode r kw acc.1) acc.1 (fun q hq => Or.inl hq)

theorem fold_dir {σ : Type} (E : Env σ) (kw : String) (roots : List String) :
    ∀ (acc : List String × List Event),
      ∀ q ∈ (roots.foldl (searchRoot E kw) acc).1, q ∈ acc.1 ∨ ∃ r ∈ roots, Dir q = r := by
  induction roots with
  | nil => intro acc q hq; exact Or.inl hq
  | cons r rest ih =>
    intro acc q hq
    rw [List.foldl_cons] at hq
    rcases ih _ q hq with h | ⟨r', hr', hd⟩
    · rcases searchRoot_dir E kw acc r q h with h1 | h1
      · exact Or.inl h1
      · exact Or.inr ⟨r, by simp, h1⟩
    · exact Or.inr ⟨r', by simp [hr'], hd⟩

theorem findAssociatedFiles_ok {σ : Type} (E : Env σ) (home appName : String)
    (huser : E.userCurrent = .ok home) :
    findAssociatedFiles E appName =
      (.ok (E.rangeOrder ((pathsToSearch home).foldl
          (searchRoot E (searchKeyword E.unicode appName)) ([], [])).1),
        ((pathsToSearch home).foldl
          (searchRoot E (searchKeyword E.unicode appName)) ([], [])).2) := by
  simp [findAssociatedFiles, huser]

theorem mem_found {σ : Type} (E : Env σ) (home appName : String) (found : List String)
    (huser : E.userCurrent = .ok home) (horder : ∀ keys, (E.rangeOrder keys).Perm keys)
    (hfound : (findAssociatedFiles E appName).1 = .ok found) (q : String) :
    q ∈ found ↔ q ∈ ((pathsToSearch home).foldl
          (searchRoot E (searchKeyword E.unicode appName)) ([], [])).1 := by
  rw [findAssociatedFiles_ok E home appName huser] at hfound
  simp only [Except.ok.injEq] at hfound
  rw [← hfound]
  exact (horder _).mem_iff

theorem descend_cons (r n : String) (ns : List String) :
    descend r (n :: ns) = descend (Join [r, n]) ns := rfl

theorem child_longer (r n : String) : r.data.length < (r ++ "/" ++ n).data.length := by
  simp [String.data_append, slash_data]

theorem descend_clean (ns : List String) :
    ∀ r : String, CleanDir r → (∀ n ∈ ns, validName n = true) →
      CleanDir (descend r ns) ∧ r.data.length ≤ (descend r ns).data.length ∧
        (ns ≠ [] → r.data.length < (descend r ns).data.length) := by
  induction ns with
  | nil => intro r hr _; exact ⟨hr, Nat.le_refl _, fun h => absurd rfl h⟩
  | cons n rest ih =>
    intro r hr hv
    obtain ⟨hj, hc, _⟩ := child_path r n hr (hv n (by simp))
    rw [descend_cons, hj]
    obtain ⟨h1, h2, _⟩ := ih (r ++ "/" ++ n) hc (fun m hm => hv m (by simp [hm]))
    have := child_longer r n
    exact ⟨h1, by omega, fun _ => by omega⟩

theorem descend_snoc (r : String) (ns : List String) (n : String) :
    descend r (ns ++ [n]) = Join [descend r ns, n] := by
  simp [descend, List.foldl_append]

theorem deep_dir_ne_root (r : String) (names : List String) (hr : CleanDir r)
    (hlen : 2 ≤ names.length) (hv : ∀ n ∈ names, validName n = true) :
    Dir (descend r names) ≠ r := by
  rcases eq_nil_or_snoc names with h | ⟨ns, n, h⟩
  · subst h; simp at hlen
  · subst h
    have hns : ns ≠ [] := by
      intro e; subst e; simp at hlen
    obtain ⟨hc, _, hlt⟩ := descend_clean ns r hr (fun m hm => hv m (by simp [hm]))
    obtain ⟨hj, _, hd⟩ := child_path (descend r ns) n hc (hv n (by simp))
    rw [descend_snoc, hj, hd]
    intro e
    have := hlt hns
    rw [e] at this
    exact Nat.lt_irrefl _ this

/-- C2 (depth restriction).  Every path `findAssociatedFiles` returns has one
of the nine search roots as its `filepath.Dir`, and it is not the path of any
entry two or more levels below that root, whatever the names on the way are. -/
theorem found_directly_under_root {σ : Type} (E : Env σ) (home appName : String)
    (found : List String) (huser : E.userCurrent = .ok home)
    (horder : ∀ keys, (E.rangeOrder keys).Perm keys)
    (hfound : (findAssociatedFiles E appName).1 = .ok found) :
    ∀ p ∈ found, ∃ r ∈ pathsToSearch home, Dir p = r ∧
      ∀ names : List String, 2 ≤ names.length → (∀ n ∈ names, validName n = true) →
        p ≠ descend r names := by
  intro p hp
  rw [mem_found E home appName found huser horder hfound] at hp
  rcases fold_dir E _ (pathsToSearch home) ([], []) p hp with h | ⟨r, hr, hd⟩
  · exact absurd h (List.not_mem_nil p)
  · refine ⟨r, hr, hd, ?_⟩
    intro names hlen hv e
    rw [e] at hd
    exact deep_dir_ne_root r names (roots_clean home r hr).1 hlen hv hd

theorem WalkDir_unreadable {σ : Type} (E : Env σ) (home kw r : String) (e : GoError)
    (hr : r ∈ pathsToSearch home) (hunread : rootReadError E r = some e) (st : List String) :
    WalkDir E.lstat r (walkFn E.unicode r kw) st
      = (st, if e.isPermission then none else some e) := by
  have hdir : Dir r ≠ r := (roots_clean home r hr).2
  unfold rootReadError at hunread
  unfold WalkDir
  split at hunread
  · rename_i e' hl
    simp only [Option.some.injEq] at hunread
    subst hunread
    rw [hl]
    exact walkFn_err _ _ _ _ _ _ _
  · rename_i name e' hl
    simp only [Option.some.injEq] at hunread
    subst hunread
    rw [hl]
    simp only [walkDir, walkFn_ok, hdir, false_and, if_false, walkFn_err]
    cases e'.isPermission <;> simp [walkEntries]
  · exact absurd hunread (by simp)

theorem searchRoot_unreadable {σ : Type} (E : Env σ) (home kw r : String) (e : GoError)
    (hr : r ∈ pathsToSearch home) (hunread : rootReadError E r = some e)
    (acc : List String × List Event) :
    searchRoot E kw acc r
      = (acc.1, acc.2 ++ .walkDir r :: (if e.isPermission then [] else [scanWarning r e])) := by
  unfold searchRoot
  rw [WalkDir_unreadable E home kw r e hr hunread]
  cases e.isPermission <;> simp

theorem searchRoot_trace {σ : Type} (E : Env σ) (kw : String) (acc : List String × List Event)
    (r : String) : ∃ evs, (searchRoot E kw acc r).2 = acc.2 ++ .walkDir r :: evs := by
  unfold searchRoot
  cases hw : WalkDir E.lstat r (walkFn E.unicode r kw) acc.1 with
  | mk st e =>
    cases e with
    | none => exact ⟨[], rfl⟩
    | some err => exact ⟨[scanWarning r err], rfl⟩

theorem fold_trace_mono {σ : Type} (E : Env σ) (kw : String) (roots : List String) :
    ∀ (acc : List String × List Event) (ev : Event),
      ev ∈ acc.2 → ev ∈ (roots.foldl (searchRoot E kw) acc).2 := by
  induction roots with
  | nil => intro acc ev h; exact h
  | cons r rest ih =>
    intro acc ev h
    rw [List.foldl_cons]
    apply ih
    obtain ⟨evs, he⟩ := searchRoot_trace E kw acc r
    rw [he]
    exact List.mem_append_left _ h

theorem fold_event {σ : Type} (E : Env σ) (kw : String) (r : String) (ev : Event)
    (hev : ∀ acc, ev ∈ (searchRoot E kw acc r).2) (roots : List String) :
    ∀ (acc : List String × List Event), r ∈ roots →
      ev ∈ (roots.foldl (searchRoot E kw) acc).2 := by
  induction roots with
  | nil => intro acc h; exact absurd h (List.not_mem_nil r)
  | cons r0 rest ih =>
    intro acc h
    rw [List.foldl_cons]
    rcases List.mem_cons.mp h with h1 | h1
    · subst h1
      exact fold_trace_mono E kw rest _ ev (hev acc)
    · exact ih _ h1

/-- C6 (a search root that cannot be read).  Let `r` be one of the nine search
roots and let reading it fail with the error `e` (`os.Lstat` fails, or
`os.ReadDir` on it fails without an entry).  Then `findAssociatedFiles` still
returns without error; the round of its loop for `r` leaves `uniquePaths` as
it was and adds to the trace the walk of `r`, followed by the warning naming
`r` and `e` when `e` is not a permission error and by nothing when it is; such
a warning is therefore part of what the function prints; and every one of the
nine roots is walked. -/
theorem unreadable_root_is_skipped {σ : Type} (E : Env σ) (home appName r : String)
    (e : GoError) (huser : E.userCurrent = .ok home) (hr : r ∈ pathsToSearch home)
    (hunread : rootReadError E r = some e) :
    (∃ found, (findAssociatedFiles E appName).1 = .ok found) ∧
      (∀ acc : List String × List Event,
        searchRoot E (searchKeyword E.unicode appName) acc r =
          (acc.1, acc.2 ++ .walkDir r :: (if e.isPermission then [] else [scanWarning r e]))) ∧
      (e.isPermission = false → scanWarning r e ∈ (findAssociatedFiles E appName).2) ∧
      (∀ r' ∈ pathsToSearch home, Event.walkDir r' ∈ (findAssociatedFiles E appName).2) := by
  have hround := searchRoot_unreadable E home (searchKeyword E.unicode appName) r e hr hunread
  rw [findAssociatedFiles_ok E home appName huser]
  refine ⟨⟨_, rfl⟩, hround, ?_, ?_⟩
  · intro hperm
    apply fold_event E _ r _ _ _ _ hr
    intro acc
    rw [hround acc, hperm]
    simp
  · intro r' hr'
    apply fold_event E _ r' _ _ _ _ hr'
    intro acc
    obtain ⟨evs, he⟩ := searchRoot_trace E (searchKeyword E.unicode appName) acc r'
    rw [he]
    simp

theorem walkFn_ok_name (U : UnicodeTables) (root kw p : String) (d : Node) (st : List String) :
    walkFn U root kw p (some d) none st =
      (if Dir p = root ∧ nameMatches U kw d.name = true then insertKey st p else st, none) := by
  rw [walkFn_ok]
  rfl

theorem walkFn_mono (U : UnicodeTables) (root kw : String) (q : String) :
    ∀ (p : String) (d : Option Node) (err : Option GoError) (st : List String),
      q ∈ st → q ∈ (walkFn U root kw p d err st).1 := by
  intro p d err st h
  cases err with
  | some e => rw [walkFn_err]; exact h
  | none =>
    rw [walkFn_ok]
    split
    · exact (mem_insertKey st p q).mpr (Or.inl h)
    · exact h

/-- The callback on a child of a directory below (or at) the root adds at most
the path of a matching direct child of the root. -/
theorem walkFn_child (U : UnicodeTables) (root kw p : String) (d : Node) (st : List String)
    (hp : CleanDir p) (hn : validName d.name = true) :
    ∀ q ∈ (walkFn U root kw (p ++ "/" ++ d.name) (some d) none st).1,
      q ∈ st ∨ DirectMatch U root kw q := by
  intro q hq
  rw [walkFn_ok_name] at hq
  obtain ⟨_, _, hd⟩ := child_path p d.name hp hn
  by_cases hc : Dir (p ++ "/" ++ d.name) = root ∧ nameMatches U kw d.name = true
  · rw [if_pos hc] at hq
    rcases (mem_insertKey st _ q).mp hq with h1 | h1
    · exact Or.inl h1
    · have hpr : p = root := by rw [← hd]; exact hc.1
      exact Or.inr ⟨d.name, hn, by rw [h1, hpr], hc.2⟩
  · rw [if_neg hc] at hq
    exact Or.inl hq

theorem walkDir_sound (U : UnicodeTables) (root kw : String) :
    ∀ (d : Node) (p : String) (st : List String), validName d.name = true →
      d.entriesValid = true → CleanDir p →
      ∀ q ∈ (walkDir (walkFn U root kw) d (Join [p, d.name]) st).1,
        q ∈ st ∨ DirectMatch U root kw q := by
  intro d
  induction d using Node.rec
    (motive_2 := fun es => ∀ (p : String) (st : List String), entriesValidList es = true →
      CleanDir p →
      ∀ q ∈ (walkEntries (walkFn U root kw) es p st).1, q ∈ st ∨ DirectMatch U root kw q) with
  | file name =>
    intro p st hn _ hp q hq
    have hj := (child_path p name hp hn).1
    simp only [Node.name] at hq
    rw [hj] at hq
    simp only [walkDir] at hq
    exact walkFn_child U root kw p (.file name) st hp hn q hq
  | dir name entries readErr ih =>
    intro p st hn hv hp q hq
    obtain ⟨hj, hc, _⟩ := child_path p name hp hn
    simp only [Node.name] at hq
    rw [hj] at hq
    have hv' : entriesValidList entries = true := by
      simpa [Node.entriesValid] using hv
    have hfirst := walkFn_child U root kw p (.dir name entries readErr) st hp hn
    simp only [Node.name] at hfirst
    simp only [walkDir] at hq
    cases hc1 : walkFn U root kw (p ++ "/" ++ name) (some (.dir name entries readErr)) none st with
    | mk st1 e1 =>
      rw [hc1] at hq hfirst
      simp only at hfirst
      cases e1 with
      | some e => exact hfirst q hq
      | none =>
        simp only at hq
        have hrest : ∀ q ∈ (walkEntries (walkFn U root kw) entries (p ++ "/" ++ name) st1).1,
            q ∈ st ∨ DirectMatch U root kw q := by
          intro q hq
          rcases ih (p ++ "/" ++ name) st1 hv' hc q hq with h | h
          · exact hfirst q h
          · exact Or.inr h
        cases readErr with
        | none => exact hrest q hq
        | some re =>
          simp only [walkFn_err] at hq
          cases hperm : re.isPermission with
          | true =>
            rw [hperm] at hq
            simp only [if_true] at hq
            exact hrest q hq
          | false =>
            rw [hperm] at hq
            simp only [Bool.false_eq_true, if_false] at hq
            exact hfirst q hq
  | nil =>
    rename_i p st _ _ q hq
    simp only [walkEntries] at hq
    exact Or.inl hq
  | cons d rest ih1 ih2 =>
    rename_i p st hv hp q hq
    have hv3 : validName d.name = true ∧ d.entriesValid = true ∧ entriesValidList rest = true := by
      simpa [entriesValidList, and_assoc] using hv
    simp only [walkEntries] at hq
    have h1 := ih1 p st hv3.1 hv3.2.1 hp
    cases hc1 : walkDir (walkFn U root kw) d (Join [p, d.name]) st with
    | mk st1 e1 =>
      rw [hc1] at hq h1
      simp only at h1
      cases e1 with
      | some e => exact h1 q hq
      | none =>
        simp only at hq
        rcases ih2 p st1 hv3.2.2 hp q hq with h | h
        · exact h1 q h
        · exact Or.inr h

theorem walkEntries_sound (U : UnicodeTables) (root kw : String) :
    ∀ (es : List Node) (p : String) (st : List String), entriesValidList es = true →
      CleanDir p →
      ∀ q ∈ (walkEntries (walkFn U root kw) es p st).1, q ∈ st ∨ DirectMatch U root kw q := by
  intro es
  induction es with
  | nil =>
    intro p st _ _ q hq
    simp only [walkEntries] at hq
    exact Or.inl hq
  | cons d rest ih =>
    intro p st hv hp q hq
    have hv3 : validName d.name = true ∧ d.entriesValid = true ∧ entriesValidList rest = true := by
      simpa [entriesValidList, and_assoc] using hv
    simp only [walkEntries] at hq
    have h1 := walkDir_sound U root kw d p st hv3.1 hv3.2.1 hp
    cases hc1 : walkDir (walkFn U root kw) d (Join [p, d.name]) st with
    | mk st1 e1 =>
      rw [hc1] at hq h1
      simp only at h1
      cases e1 with
      | some e => exact h1 q hq
      | none =>
        simp only at hq
        rcases ih p st1 hv3.2.2 hp q hq with h | h
        · exact h1 q h
        · exact Or.inr h

/-- The walk of a search root adds only paths of matching direct children. -/
theorem WalkDir_sound {σ : Type} (E : Env σ) (home kw r : String) (hr : r ∈ pathsToSearch home)
    (hvalid : ∀ info, E.lstat r = .ok info → info.entriesValid = true) (st : List String) :
    ∀ q ∈ (WalkDir E.lstat r (walkFn E.unicode r kw) st).1,
      q ∈ st ∨ DirectMatch E.unicode r kw q := by
  obtain ⟨hclean, hdir⟩ := roots_clean home r hr
  intro q hq
  unfold WalkDir at hq
  cases hl : E.lstat r with
  | error e =>
    rw [hl] at hq
    simp only [walkFn_err] at hq
    exact Or.inl hq
  | ok info =>
    rw [hl] at hq
    have hv := hvalid info hl
    cases info with
    | file name =>
      simp only [walkDir, walkFn_ok, hdir, false_and, if_false] at hq
      exact Or.inl hq
    | dir name entries readErr =>
      have hv' : entriesValidList entries = true := by
        simpa [Node.entriesValid] using hv
      have hrest := walkEntries_sound E.unicode r kw entries r st hv' hclean
      simp only [walkDir, walkFn_ok, hdir, false_and, if_false] at hq
      cases readErr with
      | none => exact hrest q hq
      | some re =>
        simp only [walkFn_err] at hq
        cases hperm : re.isPermission with
        | true =>
          rw [hperm] at hq
          simp only [if_true] at hq
          exact hrest q hq
        | false =>
          rw [hperm] at hq
          simp only [Bool.false_eq_true, if_false] at hq
          exact Or.inl hq

theorem fold_sound {σ : Type} (E : Env σ) (home kw : String) (roots : List String)
    (hroots : ∀ r ∈ roots, r ∈ pathsToSearch home)
    (hvalid : ∀ r ∈ roots, ∀ info, E.lstat r = .ok info → info.entriesValid = true) :
    ∀ (acc : List String × List Event),
      ∀ q ∈ (roots.foldl (searchRoot E kw) acc).1,
        q ∈ acc.1 ∨ ∃ r ∈ roots, DirectMatch E.unicode r kw q := by
  induction roots with
  | nil => intro acc q hq; exact Or.inl hq
  | cons r rest ih =>
    intro acc q hq
    rw [List.foldl_cons] at hq
    rcases ih (fun x hx => hroots x (by simp [hx])) (fun x hx => hvalid x (by simp [hx])) _ q hq
      with h | ⟨r', hr', hd⟩
    · rw [searchRoot_fst] at h
      rcases WalkDir_sound E home kw r (hroots r (by simp)) (hvalid r (by simp)) acc.1 q h
        with h1 | h1
      · exact Or.inl h1
      · exact Or.inr ⟨r, by simp, h1⟩
    · exact Or.inr ⟨r', by simp [hr'], hd⟩

theorem takeWhile_append_stop {α : Type} (p : α → Bool) (a b : List α) (x : α)
    (h : ∀ c ∈ a, p c = true) (hx : p x = false) : (a ++ x :: b).takeWhile p = a := by
  induction a with
  | nil => simp [List.takeWhile, hx]
  | cons c cs ih =>
    have hc : p c = true := h c (by simp)
    simp [List.takeWhile, hc, ih (fun d hd => h d (by simp [hd]))]

/-- The last element of a path determines itself. -/
theorem last_component (a b n m : String) (hn : validName n = true) (hm : validName m = true)
    (h : a ++ "/" ++ n = b ++ "/" ++ m) : n = m := by
  obtain ⟨_, hn2, _, _⟩ := (validName_iff n).mp hn
  obtain ⟨_, hm2, _, _⟩ := (validName_iff m).mp hm
  have hd := congrArg (fun s : String => s.data.reverse) h
  simp only [String.data_append, slash_data, List.reverse_append, List.reverse_cons,
    List.reverse_nil, List.nil_append, List.append_assoc, List.singleton_append] at hd
  have key : ∀ (x : String) (y : List Char), '/' ∉ x.data →
      (x.data.reverse ++ '/' :: y).takeWhile (fun c => c ≠ '/') = x.data.reverse := by
    intro x y hx
    apply takeWhile_append_stop
    · intro c hc
      have : c ≠ '/' := fun e => hx (by simpa [e] using hc)
      simp [this]
    · simp
  have h1 := key n a.data.reverse hn2
  have h2 := key m b.data.reverse hm2
  rw [hd, h2] at h1
  apply String_eq_of_data
  exact (List.reverse_inj.mp h1).symm

theorem searchRoot_mono {σ : Type} (E : Env σ) (kw : String) (acc : List String × List Event)
    (r q : String) (hq : q ∈ acc.1) : q ∈ (searchRoot E kw acc r).1 := by
  rw [searchRoot_fst]
  exact WalkDir_inv E.lstat r _ (fun s => q ∈ s) (walkFn_mono E.unicode r kw q) acc.1 hq

theorem fold_mono {σ : Type} (E : Env σ) (kw q : String) (roots : List String) :
    ∀ (acc : List String × List Event), q ∈ acc.1 →
      q ∈ (roots.foldl (searchRoot E kw) acc).1 := by
  induction roots with
  | nil => intro acc h; exact h
  | cons r rest ih =>
    intro acc h
    rw [List.foldl_cons]
    exact ih _ (searchRoot_mono E kw acc r q h)

theorem fold_complete {σ : Type} (E : Env σ) (kw r q : String)
    (hround : ∀ acc : List String × List Event, q ∈ (searchRoot E kw acc r).1)
    (roots : List String) :
    ∀ (acc : List String × List Event), r ∈ roots →
      q ∈ (roots.foldl (searchRoot E kw) acc).1 := by
  induction roots with
  | nil => intro acc h; exact absurd h (List.not_mem_nil r)
  | cons r0 rest ih =>
    intro acc h
    rw [List.foldl_cons]
    rcases List.mem_cons.mp h with h1 | h1
    · subst h1
      exact fold_mono E kw q rest _ (hround acc)
    · exact ih _ h1

theorem entriesValidList_mem (es : List Node) (h : entriesValidList es = true) :
    ∀ e ∈ es, validName e.name = true := by
  induction es with
  | nil => intro e he; exact absurd he (List.not_mem_nil e)
  | cons d rest ih =>
    intro e he
    have hv3 : validName d.name = true ∧ d.entriesValid = true ∧ entriesValidList rest = true := by
      simpa [entriesValidList, and_assoc] using h
    rcases List.mem_cons.mp he with h1 | h1
    · rw [h1]; exact hv3.1
    · exact ih hv3.2.2 e h1

/-- The error the walk of a tree returns is the one read off the tree. -/
theorem walkDir_error (U : UnicodeTables) (root kw : String) :
    ∀ (d : Node) (p : String) (st : List String),
      (walkDir (walkFn U root kw) d p st).2 = d.hardError := by
  intro d
  induction d using Node.rec
    (motive_2 := fun es => ∀ (p : String) (st : List String),
      (walkEntries (walkFn U root kw) es p st).2 = hardErrorList es) with
  | file name =>
    intro p st
    simp only [walkDir, walkFn_ok, Node.hardError]
  | dir name entries readErr ih =>
    intro p st
    simp only [walkDir, walkFn_ok, Node.hardError]
    cases readErr with
    | none => exact ih p _
    | some re =>
      simp only [walkFn_err]
      cases re.isPermission with
      | true => exact ih p _
      | false => simp
  | nil =>
    rename_i p st
    simp only [walkEntries, hardErrorList]
  | cons d rest ih1 ih2 =>
    rename_i p st
    simp only [walkEntries, hardErrorList]
    have h1 := ih1 (Join [p, d.name]) st
    cases hc : walkDir (walkFn U root kw) d (Join [p, d.name]) st with
    | mk st1 e1 =>
      rw [hc] at h1
      simp only at h1
      rw [← h1]
      cases e1 with
      | some e => rfl
      | none => exact ih2 p st1

theorem walkEntries_error (U : UnicodeTables) (root kw : String) :
    ∀ (es : List Node) (p : String) (st : List String),
      (walkEntries (walkFn U root kw) es p st).2 = hardErrorList es := by
  intro es
  induction es with
  | nil => intro p st; simp only [walkEntries, hardErrorList]
  | cons d rest ih =>
    intro p st
    simp only [walkEntries, hardErrorList]
    have h1 := walkDir_error U root kw d (Join [p, d.name]) st
    cases hc : walkDir (walkFn U root kw) d (Join [p, d.name]) st with
    | mk st1 e1 =>
      rw [hc] at h1
      simp only at h1
      rw [← h1]
      cases e1 with
      | some e => rfl
      | none => exact ih p st1

/-- Below a directory whose path is longer than the root nothing is added:
no entry there has the root as its `Dir`. -/
theorem walkDir_below (U : UnicodeTables) (root kw : String) :
    ∀ (d : Node) (p : String) (st : List String), validName d.name = true →
      d.entriesValid = true → CleanDir p → root.data.length < p.data.length →
      (walkDir (walkFn U root kw) d (Join [p, d.name]) st).1 = st := by
  intro d
  induction d using Node.rec
    (motive_2 := fun es => ∀ (p : String) (st : List String), entriesValidList es = true →
      CleanDir p → root.data.length < p.data.length →
      (walkEntries (walkFn U root kw) es p st).1 = st) with
  | file name =>
    intro p st hn _ hp hlen
    obtain ⟨hj, _, hd⟩ := child_path p name hp hn
    have hne : p ≠ root := fun e => by rw [e] at hlen; exact Nat.lt_irrefl _ hlen
    simp only [Node.name]
    rw [hj]
    simp only [walkDir, walkFn_ok, hd, hne, false_and, if_false]
  | dir name entries readErr ih =>
    intro p st hn hv hp hlen
    obtain ⟨hj, hc, hd⟩ := child_path p name hp hn
    have hne : p ≠ root := fun e => by rw [e] at hlen; exact Nat.lt_irrefl _ hlen
    have hlen' : root.data.length < (p ++ "/" ++ name).data.length :=
      Nat.lt_trans hlen (child_longer p name)
    have hv' : entriesValidList entries = true := by
      simpa [Node.entriesValid] using hv
    have hrest := ih (p ++ "/" ++ name) st hv' hc hlen'
    simp only [Node.name]
    rw [hj]
    simp only [walkDir, walkFn_ok, hd, hne, false_and, if_false]
    cases readErr with
    | none => exact hrest
    | some re =>
      simp only [walkFn_err]
      cases re.isPermission with
      | true => exact hrest
      | false => simp
  | nil =>
    rename_i p st _ _ _
    simp only [walkEntries]
  | cons d rest ih1 ih2 =>
    rename_i p st hv hp hlen
    have hv3 : validName d.name = true ∧ d.entriesValid = true ∧ entriesValidList rest = true := by
      simpa [entriesValidList, and_assoc] using hv
    simp only [walkEntries]
    have h1 := ih1 p st hv3.1 hv3.2.1 hp hlen
    cases hc : walkDir (walkFn U root kw) d (Join [p, d.name]) st with
    | mk st1 e1 =>
      rw [hc] at h1
      simp only at h1
      subst h1
      cases e1 with
      | some e => rfl
      | none => exact ih2 p st1 hv3.2.2 hp hlen

theorem walkEntries_below (U : UnicodeTables) (root kw : String) :
    ∀ (es : List Node) (p : String) (st : List String), entriesValidList es = true →
      CleanDir p → root.data.length < p.data.length →
      (walkEntries (walkFn U root kw) es p st).1 = st := by
  intro es
  induction es with
  | nil => intro p st _ _ _; simp only [walkEntries]
  | cons d rest ih =>
    intro p st hv hp hlen
    have hv3 : validName d.name = true ∧ d.entriesValid = true ∧ entriesValidList rest = true := by
      simpa [entriesValidList, and_assoc] using hv
    simp only [walkEntries]
    have h1 := walkDir_below U root kw d p st hv3.1 hv3.2.1 hp hlen
    cases hc : walkDir (walkFn U root kw) d (Join [p, d.name]) st with
    | mk st1 e1 =>
      rw [hc] at h1
      simp only at h1
      subst h1
      cases e1 with
      | some e => rfl
      | none => exact ih p st1 hv3.2.2 hp hlen

/-- The walk of one entry of the root: its path is added if its name passes
the test, nothing else is, and the error is the one read off its tree. -/
theorem walkDir_child (U : UnicodeTables) (root kw : String) (hroot : CleanDir root)
    (d : Node) (st : List String) (hn : validName d.name = true)
    (hv : d.entriesValid = true) :
    walkDir (walkFn U root kw) d (Join [root, d.name]) st =
      (if nameMatches U kw d.name = true then insertKey st (root ++ "/" ++ d.name) else st,
        d.hardError) := by
  have herr := walkDir_error U root kw d (Join [root, d.name]) st
  obtain ⟨hj, hc, hd⟩ := child_path root d.name hroot hn
  have hlen := child_longer root d.name
  apply Prod.ext
  · simp only
    rw [hj]
    cases d with
    | file name =>
      simp only [Node.name] at hd ⊢
      simp only [walkDir, walkFn_ok_name, hd, true_and, Node.name]
    | dir name entries readErr =>
      simp only [Node.name] at hd hc hlen ⊢
      have hv' : entriesValidList entries = true := by
        simpa [Node.entriesValid] using hv
      simp only [walkDir, walkFn_ok_name, hd, true_and, Node.name]
      cases readErr with
      | none => exact walkEntries_below U root kw entries _ _ hv' hc hlen
      | some re =>
        simp only [walkFn_err]
        cases re.isPermission with
        | true => exact walkEntries_below U root kw entries _ _ hv' hc hlen
        | false => simp
  · exact herr

theorem hardErrorList_cons_none (d : Node) (rest : List Node) (h : d.hardError = none) :
    hardErrorList (d :: rest) = hardErrorList rest := by
  simp only [hardErrorList, h]

theorem hardErrorList_cons_some (d : Node) (rest : List Node) (e : GoError)
    (h : d.hardError = some e) : hardErrorList (d :: rest) = some e := by
  simp only [hardErrorList, h]

/-- What the walk of the entries of the root adds: the paths of the entries
with a matching name that come before the walk ends. -/
theorem walkEntries_root (U : UnicodeTables) (root kw : String) (hroot : CleanDir root) :
    ∀ (es : List Node) (st : List String), entriesValidList es = true →
      ∀ q, q ∈ (walkEntries (walkFn U root kw) es root st).1 ↔
        q ∈ st ∨ ∃ (pre : List Node) (d : Node) (post : List Node),
          es = pre ++ d :: post ∧ hardErrorList pre = none ∧
            nameMatches U kw d.name = true ∧ q = root ++ "/" ++ d.name := by
  intro es
  induction es with
  | nil =>
    intro st _ q
    simp only [walkEntries]
    constructor
    · exact Or.inl
    · rintro (h | ⟨pre, d, post, h, _⟩)
      · exact h
      · exact absurd h (by simp)
  | cons d rest ih =>
    intro st hv q
    have hv3 : validName d.name = true ∧ d.entriesValid = true ∧ entriesValidList rest = true := by
      simpa [entriesValidList, and_assoc] using hv
    have hstep := walkDir_child U root kw hroot d st hv3.1 hv3.2.1
    have hfirst : ∀ x, x ∈ (if nameMatches U kw d.name = true
        then insertKey st (root ++ "/" ++ d.name) else st) ↔
        x ∈ st ∨ (nameMatches U kw d.name = true ∧ x = root ++ "/" ++ d.name) := by
      intro x
      by_cases hm : nameMatches U kw d.name = true
      · rw [if_pos hm, mem_insertKey]; simp [hm]
      · rw [if_neg hm]; simp [hm]
    simp only [walkEntries, hstep]
    cases hd : d.hardError with
    | some e =>
      simp only
      rw [hfirst]
      constructor
      · rintro (h | ⟨hm, hq⟩)
        · exact Or.inl h
        · exact Or.inr ⟨[], d, rest, rfl, rfl, hm, hq⟩
      · rintro (h | ⟨pre, d', post, hsplit, hpre, hm, hq⟩)
        · exact Or.inl h
        · cases pre with
          | nil =>
            simp only [List.nil_append, List.cons.injEq] at hsplit
            rw [← hsplit.1] at hm hq
            exact Or.inr ⟨hm, hq⟩
          | cons x pre' =>
            simp only [List.cons_append, List.cons.injEq] at hsplit
            rw [← hsplit.1, hardErrorList_cons_some d pre' e hd] at hpre
            exact absurd hpre (by simp)
    | none =>
      simp only
      rw [ih _ hv3.2.2 q, hfirst]
      constructor
      · rintro ((h | ⟨hm, hq⟩) | ⟨pre, d', post, hsplit, hpre, hm, hq⟩)
        · exact Or.inl h
        · exact Or.inr ⟨[], d, rest, rfl, rfl, hm, hq⟩
        · refine Or.inr ⟨d :: pre, d', post, by rw [hsplit]; rfl, ?_, hm, hq⟩
          rw [hardErrorList_cons_none d pre hd]
          exact hpre
      · rintro (h | ⟨pre, d', post, hsplit, hpre, hm, hq⟩)
        · exact Or.inl (Or.inl h)
        · cases pre with
          | nil =>
            simp only [List.nil_append, List.cons.injEq] at hsplit
            rw [← hsplit.1] at hm hq
            exact Or.inl (Or.inr ⟨hm, hq⟩)
          | cons x pre' =>
            simp only [List.cons_append, List.cons.injEq] at hsplit
            rw [← hsplit.1, hardErrorList_cons_none d pre' hd] at hpre
            exact Or.inr ⟨pre', d', post, hsplit.2, hpre, hm, hq⟩

theorem reached_iff (readErr : Option GoError) (before : List Node) :
    reached readErr before = true ↔
      (∀ re, readErr = some re → re.isPermission = true) ∧ hardErrorList before = none := by
  cases readErr with
  | none => simp [reached]
  | some re => simp [reached]

/-- What the walk of a search root that is a directory adds. -/
theorem WalkDir_root {σ : Type} (E : Env σ) (home kw r rootName : String)
    (entries : List Node) (readErr : Option GoError) (hr : r ∈ pathsToSearch home)
    (hroot : E.lstat r = .ok (.dir rootName entries readErr))
    (hv : entriesValidList entries = true) (st : List String) (q : String) :
    q ∈ (WalkDir E.lstat r (walkFn E.unicode r kw) st).1 ↔
      q ∈ st ∨ ∃ (pre : List Node) (d : Node) (post : List Node),
        entries = pre ++ d :: post ∧ reached readErr pre = true ∧
          nameMatches E.unicode kw d.name = true ∧ q = r ++ "/" ++ d.name := by
  obtain ⟨hclean, hdir⟩ := roots_clean home r hr
  have hes := walkEntries_root E.unicode r kw hclean entries st hv q
  unfold WalkDir
  rw [hroot]
  simp only [walkDir, walkFn_ok, hdir, false_and, if_false]
  cases readErr with
  | none =>
    rw [hes]
    simp [reached_iff]
  | some re =>
    simp only [walkFn_err]
    cases hperm : re.isPermission with
    | true =>
      simp only [if_true]
      rw [hes]
      simp [reached_iff, hperm]
    | false =>
      simp [reached_iff, hperm]

theorem fold_origin {σ : Type} (E : Env σ) (kw : String) (roots : List String) :
    ∀ (acc : List String × List Event) (q : String),
      q ∈ (roots.foldl (searchRoot E kw) acc).1 →
      q ∈ acc.1 ∨ ∃ r ∈ roots, ∃ st : List String,
        q ∉ st ∧ q ∈ (WalkDir E.lstat r (walkFn E.unicode r kw) st).1 := by
  induction roots with
  | nil => intro acc q hq; exact Or.inl hq
  | cons r rest ih =>
    intro acc q hq
    rw [List.foldl_cons] at hq
    rcases ih _ q hq with h | ⟨r', hr', st, h1, h2⟩
    · rw [searchRoot_fst] at h
      by_cases hin : q ∈ acc.1
      · exact Or.inl hin
      · exact Or.inr ⟨r, by simp, acc.1, hin, h⟩
    · exact Or.inr ⟨r', by simp [hr'], st, h1, h2⟩

/-- In a listing without repeated names, an entry is found at one place. -/
theorem split_unique (before : List Node) :
    ∀ (pre after post : List Node) (e d : Node),
      ((before ++ e :: after).map Node.name).Nodup →
      before ++ e :: after = pre ++ d :: post → d.name = e.name → pre = before := by
  induction before with
  | nil =>
    intro pre after post e d hnd hsplit hname
    cases pre with
    | nil => rfl
    | cons x pre' =>
      simp only [List.nil_append, List.cons_append, List.cons.injEq] at hsplit
      simp only [List.nil_append, List.map_cons, List.nodup_cons, List.mem_map, not_exists,
        not_and] at hnd
      exact absurd hname (hnd.1 d (by rw [hsplit.2]; simp))
  | cons b before' ih =>
    intro pre after post e d hnd hsplit hname
    cases pre with
    | nil =>
      simp only [List.nil_append, List.cons_append, List.cons.injEq] at hsplit
      simp only [List.cons_append, List.map_cons, List.nodup_cons, List.mem_map, not_exists,
        not_and] at hnd
      have := hnd.1 e (by simp)
      rw [hsplit.1] at this
      exact absurd hname.symm this
    | cons x pre' =>
      simp only [List.cons_append, List.cons.injEq] at hsplit
      simp only [List.cons_append, List.map_cons, List.nodup_cons] at hnd
      rw [hsplit.1, ih pre' after post e d hnd.2 hsplit.2 hname]

theorem entriesValidList_split (before after : List Node) (e : Node)
    (h : entriesValidList (before ++ e :: after) = true) : validName e.name = true :=
  entriesValidList_mem _ h e (by simp)

/-- C1 (matching invariant, as the code has it).  Let `e` be an entry directly
under one of the nine search roots `r`, listed after the entries `before`, in
a filesystem whose entry names are valid.  If the path of `e` is in the list
`findAssociatedFiles` returns, then the name of `e`, without its spaces and in
lower case, contains the application name, without its spaces and in lower
case.  Conversely, if the name does and the walk of `r` gets to `e` (reading
`r` gave no error other than a permission error, and no directory in the trees
of the entries before `e` fails to be read with an error other than a
permission error), then the path of `e` is in the list, whatever happens to
the walk after `e`.  And when no name is listed twice under `r`, the path of
`e` is in the list only if the walk gets to `e`. -/
theorem matching_for_reached_entries {σ : Type} (E : Env σ) (home appName : String)
    (found : List String) (r rootName : String) (before : List Node) (e : Node)
    (after : List Node) (readErr : Option GoError)
    (huser : E.userCurrent = .ok home)
    (horder : ∀ keys, (E.rangeOrder keys).Perm keys)
    (hvalid : ∀ r' ∈ pathsToSearch home, ∀ info, E.lstat r' = .ok info →
      info.entriesValid = true)
    (hfound : (findAssociatedFiles E appName).1 = .ok found)
    (hr : r ∈ pathsToSearch home)
    (hroot : E.lstat r = .ok (.dir rootName (before ++ e :: after) readErr)) :
    (Join [r, e.name] ∈ found →
        Contains (ToLower E.unicode (ReplaceAll e.name " " ""))
          (ToLower E.unicode (ReplaceAll appName " " "")) = true) ∧
      (reached readErr before = true →
        Contains (ToLower E.unicode (ReplaceAll e.name " " ""))
          (ToLower E.unicode (ReplaceAll appName " " "")) = true →
        Join [r, e.name] ∈ found) ∧
      (((before ++ e :: after).map Node.name).Nodup →
        Join [r, e.name] ∈ found → reached readErr before = true) := by
  have hclean := (roots_clean home r hr).1
  have hv' : entriesValidList (before ++ e :: after) = true := by
    have hv := hvalid r hr _ hroot
    simpa [Node.entriesValid] using hv
  have hname : validName e.name = true := entriesValidList_split before after e hv'
  obtain ⟨hj, _, hdir⟩ := child_path r e.name hclean hname
  rw [hj]
  refine ⟨?_, ?_, ?_⟩
  · intro hin
    rw [mem_found E home appName found huser horder hfound] at hin
    rcases fold_sound E home _ (pathsToSearch home) (fun _ h => h) hvalid ([], []) _ hin
      with h | ⟨r', _, name, hn, heq, hm⟩
    · exact absurd h (List.not_mem_nil _)
    · have : e.name = name := last_component r r' e.name name hname hn heq
      rw [this]
      exact hm
  · intro hreach hm
    rw [mem_found E home appName found huser horder hfound]
    apply fold_complete E _ r _ _ _ _ hr
    intro acc
    rw [searchRoot_fst, WalkDir_root E home _ r rootName _ readErr hr hroot hv' acc.1]
    exact Or.inr ⟨before, e, after, rfl, hreach, hm, rfl⟩
  · intro hnodup hin
    rw [mem_found E home appName found huser horder hfound] at hin
    rcases fold_origin E _ (pathsToSearch home) ([], []) _ hin with h | ⟨r', hr', st, hnot, hmem⟩
    · exact absurd h (List.not_mem_nil _)
    · have hd : r ++ "/" ++ e.name ∈ st ∨ Dir (r ++ "/" ++ e.name) = r' :=
        WalkDir_inv E.lstat r' _ (fun s => ∀ x ∈ s, x ∈ st ∨ Dir x = r')
          (walkFn_keeps_dir E.unicode r' _ st) st (fun x hx => Or.inl hx) _ hmem
      have hrr : r' = r := by
        rcases hd with h | h
        · exact absurd h hnot
        · rw [← h, hdir]
      subst hrr
      rw [WalkDir_root E home _ r' rootName _ readErr hr hroot hv' st] at hmem
      rcases hmem with h | ⟨pre, d, post, hsplit, hreach, _, hq⟩
      · exact absurd h hnot
      · have hdn : validName d.name = true :=
          entriesValidList_split pre post d (by rw [← hsplit]; exact hv')
        have hsame : d.name = e.name := (last_component r' r' e.name d.name hname hdn hq).symm
        have := split_unique before pre after post e d hnodup hsplit hsame
        rw [← this]
        exact hreach

/-! ## The theorems at the sample run -/

theorem crowdedLstat_valid :
    ∀ r ∈ pathsToSearch "/Users/alice", ∀ info, crowdedEnv.lstat r = .ok info →
      info.entriesValid = true := by
  intro r _ info h
  simp only [crowdedEnv, crowdedLstat] at h
  split_ifs at h
  injection h with h
  subst h
  decide

/-- Witness for C10: the line `  Docker Desktop` followed by a newline. -/
theorem searchKeyword_nonempty_witness :
    TrimSpace "  Docker Desktop \n" ≠ "" ∧
      searchKeyword sampleTables (TrimSpace "  Docker Desktop \n") ≠ "" :=
  ⟨by decide, (searchKeyword_nonempty sampleTables "  Docker Desktop \n" (by decide)).1⟩

/-- Witness for C9: a first line of two spaces and a tab. -/
theorem main_blank_name_witness :
    main sampleEnv 3 { stdin := "  \t\nDocker\nall\ny\n".data, fs := [], out := [] } =
      some { stdin := "Docker\nall\ny\n".data, fs := [],
             out := [ .print "--- Application Cleaner (macOS Edition) ---\n",
                      .print "Enter the name of the application to clean up (e.g., Docker): ",
                      .print "Application name cannot be empty. Exiting.\n" ] } :=
  main_blank_name sampleEnv 3 { stdin := "  \t\nDocker\nall\ny\n".data, fs := [], out := [] }
    (by decide)

/-- Witness for C7: the line ` QuIt ` at the menu for the sample candidates. -/
theorem quit_ends_loop_witness :
    handleDeletion sampleEnv sampleFound 1 { stdin := " QuIt \nall\n".data, fs := [], out := [] } =
      some { stdin := "all\n".data, fs := [],
             out := menu sampleFound ++ [.print "Exiting without changes.\n"] } :=
  quit_ends_loop sampleEnv sampleFound 0 { stdin := " QuIt \nall\n".data, fs := [], out := [] }
    (by decide)

/-- Witness for C8: the line `ALL`, confirmed with `y`. -/
theorem all_selects_listing_witness :
    selection sampleTables sampleFound (TrimSpace (readString '\n' "ALL\ny\n".data).1)
      = (sampleFound, []) :=
  (all_selects_listing sampleEnv sampleFound 0 { stdin := "ALL\ny\n".data, fs := [], out := [] }
    (by decide)).1

/-- Witness for C4: the selection `1` answered with `n`. -/
theorem unconfirmed_deletes_nothing_witness :
    handleDeletion sampleEnv sampleFound 2 { stdin := "1\nn\nquit\n".data, fs := [], out := [] } =
      handleDeletion sampleEnv sampleFound 1
        { stdin := "quit\n".data, fs := [],
          out := menu sampleFound
            ++ deletionSummary ["/Users/alice/Library/Preferences/com.docker.plist"]
            ++ [.print "Deletion cancelled.\n"] } :=
  unconfirmed_deletes_nothing sampleEnv sampleFound 1
    { stdin := "1\nn\nquit\n".data, fs := [], out := [] } (by decide) (by decide) (by decide)

/-- Counterexample to C4 as stated: the confirmation line is a space and `y`,
which is neither `y` nor `Y`, and `deleteFiles` runs on the selection. -/
theorem confirmation_with_space_deletes :
    (readString '\n' (readString '\n' "2\n y\n".data).2).1 = " y\n" ∧
      (handleDeletion sampleEnv sampleFound 1
          { stdin := "2\n y\n".data, fs := [], out := [] }).map (fun w => (w.fs, removedPaths w.out))
        = some (["/Users/alice/Library/Caches/Docker Desktop"],
            ["/Users/alice/Library/Caches/Docker Desktop"]) :=
  ⟨by decide, by decide⟩

/-- Witness for C2: the candidate `Docker Desktop` under `~/Library/Caches`
lies directly under that root; the file `docker.log` inside it, two levels
below the root, has a matching name and is not returned. -/
theorem found_directly_under_root_witness :
    (∃ r ∈ pathsToSearch "/Users/alice",
      Dir "/Users/alice/Library/Caches/Docker Desktop" = r ∧
        ∀ names : List String, 2 ≤ names.length → (∀ n ∈ names, validName n = true) →
          "/Users/alice/Library/Caches/Docker Desktop" ≠ descend r names) ∧
      nameMatches sampleTables (searchKeyword sampleTables "Docker") "docker.log" = true ∧
      descend "/Users/alice/Library/Caches" ["Docker Desktop", "docker.log"] ∉ sampleFound :=
  ⟨found_directly_under_root sampleEnv "/Users/alice" "Docker" sampleFound rfl
      (fun keys => List.reverse_perm keys) rfl "/Users/alice/Library/Caches/Docker Desktop"
      (by decide),
    by decide, by decide⟩

/-- Witness for C6: `/Library/LaunchDaemons` is not there, which is not a
permission error, and the warning is printed. -/
theorem unreadable_root_is_skipped_witness :
    rootReadError sampleEnv "/Library/LaunchDaemons" = some (notExist "/Library/LaunchDaemons") ∧
      scanWarning "/Library/LaunchDaemons" (notExist "/Library/LaunchDaemons")
        ∈ (findAssociatedFiles sampleEnv "Docker").2 :=
  ⟨rfl, (unreadable_root_is_skipped sampleEnv "/Users/alice" "Docker" "/Library/LaunchDaemons"
    (notExist "/Library/LaunchDaemons") rfl (by decide) rfl).2.2.1 rfl⟩

/-- Counterexample to C6 as stated: `os.Lstat` on `/Library/LaunchAgents` and
`os.ReadDir` on `~/Library/Saved Application State` fail with a permission
error, and the trace of `findAssociatedFiles` has no warning for either. -/
theorem permission_denied_root_not_warned :
    rootReadError sampleEnv "/Library/LaunchAgents"
        = some (permissionDenied "lstat" "/Library/LaunchAgents") ∧
      rootReadError sampleEnv "/Users/alice/Library/Saved Application State"
        = some (permissionDenied "open" "/Users/alice/Library/Saved Application State") ∧
      (findAssociatedFiles sampleEnv "Docker").2 =
        [ .walkDir "/Users/alice/Library/Application Support",
          .walkDir "/Users/alice/Library/Caches",
          .walkDir "/Users/alice/Library/Preferences",
          .walkDir "/Users/alice/Library/Logs",
          .walkDir "/Users/alice/Library/Saved Application State",
          .walkDir "/Library/Application Support",
          .walkDir "/Library/Caches",
          scanWarning "/Library/Caches" (ioError "/Library/Caches/a"),
          .walkDir "/Library/LaunchAgents",
          .walkDir "/Library/LaunchDaemons",
          scanWarning "/Library/LaunchDaemons" (notExist "/Library/LaunchDaemons") ] :=
  ⟨rfl, rfl, by decide⟩

/-- Witness for C1: on the second machine `docker` comes after a directory
that may not be read and before a directory on a failing disk.  The walk of
`/Library/Caches` returns the error of the failing disk, it gets to `docker`,
whose path is returned, and it does not get to `docker-old`, whose path is
not. -/
theorem matching_for_reached_entries_witness :
    (WalkDir crowdedEnv.lstat "/Library/Caches"
        (walkFn sampleTables "/Library/Caches" (searchKeyword sampleTables "Docker")) []).2
        = some (ioError "/Library/Caches/zzz") ∧
      reached none [.dir "Apple" [] (some (permissionDenied "open" "/Library/Caches/Apple"))]
        = true ∧
      Join ["/Library/Caches", "docker"] ∈ ["/Library/Caches/docker"] ∧
      (findAssociatedFiles crowdedEnv "Docker").1 = .ok ["/Library/Caches/docker"] :=
  ⟨by decide, by decide,
    (matching_for_reached_entries crowdedEnv "/Users/alice" "Docker" ["/Library/Caches/docker"]
      "/Library/Caches" "Caches"
      [.dir "Apple" [] (some (permissionDenied "open" "/Library/Caches/Apple"))]
      (.file "docker")
      [.dir "zzz" [] (some (ioError "/Library/Caches/zzz")), .file "docker-old"] none
      rfl (fun keys => List.reverse_perm keys) crowdedLstat_valid rfl (by decide) rfl).2.1
      (by decide) (by decide),
    rfl⟩

/-- Counterexample to C1 as stated: `docker` is an entry directly under the
search root `/Library/Caches` and its name contains the keyword of `Docker`,
but reading the directory `a` before it fails with an input/output error, the
walk of the root ends there, and the path of `docker` is not returned. -/
theorem match_after_failed_sibling_not_found :
    sampleEnv.lstat "/Library/Caches" = .ok (.dir "Caches"
        [.dir "a" [] (some (ioError "/Library/Caches/a")), .file "docker"] none) ∧
      Contains (ToLower sampleTables (ReplaceAll "docker" " " ""))
        (ToLower sampleTables (ReplaceAll "Docker" " " "")) = true ∧
      (findAssociatedFiles sampleEnv "Docker").1 = .ok sampleFound ∧
      Join ["/Library/Caches", "docker"] ∉ sampleFound :=
  ⟨rfl, by decide, rfl, by decide⟩

/-- Witness for C5: three paths of which the second may not be removed; the
first and the third are still attempted and reported, and the report of the
second holds the `sudo rm -rf` command with its path. -/
theorem deleteFiles_attempts_all_witness :
    removedPaths (deleteFiles sampleEnv
        [ "/Users/alice/Library/Caches/Docker Desktop",
          "/Users/alice/Library/Preferences/com.docker.plist",
          "/Users/alice/Library/Caches/notes.txt" ]
        { stdin := [], fs := [], out := [] }).out =
      [ "/Users/alice/Library/Caches/Docker Desktop",
        "/Users/alice/Library/Preferences/com.docker.plist",
        "/Users/alice/Library/Caches/notes.txt" ] ∧
    (deleteFiles sampleEnv
        [ "/Users/alice/Library/Caches/Docker Desktop",
          "/Users/alice/Library/Preferences/com.docker.plist",
          "/Users/alice/Library/Caches/notes.txt" ]
        { stdin := [], fs := [], out := [] }).out =
      [ .print "\n🚀 Starting deletion...\n",
        .print "Attempting to delete: /Users/alice/Library/Caches/Docker Desktop\n",
        .removeAll "/Users/alice/Library/Caches/Docker Desktop",
        .print "✅ DELETED: /Users/alice/Library/Caches/Docker Desktop\n",
        .print "Attempting to delete: /Users/alice/Library/Preferences/com.docker.plist\n",
        .removeAll "/Users/alice/Library/Preferences/com.docker.plist",
        .print "❌ PERMISSION DENIED for: /Users/alice/Library/Preferences/com.docker.plist\n",
        .print "   This file requires administrator privileges. To delete it, run this command in your terminal:\n",
        .print "   sudo rm -rf \"/Users/alice/Library/Preferences/com.docker.plist\"\n\n",
        .print "Attempting to delete: /Users/alice/Library/Caches/notes.txt\n",
        .removeAll "/Users/alice/Library/Caches/notes.txt",
        .print "✅ DELETED: /Users/alice/Library/Caches/notes.txt\n",
        .print "\n✨ Cleanup process finished.\n" ] :=
  ⟨(deleteFiles_attempts_all sampleEnv
      [ "/Users/alice/Library/Caches/Docker Desktop",
        "/Users/alice/Library/Preferences/com.docker.plist",
        "/Users/alice/Library/Caches/notes.txt" ]
      { stdin := [], fs := [], out := [] }).2.2.1, by decide⟩

end GopherTidy
